import Mathlib

/-!
Verification of the jappend buffered JSON-array writer.

This file embeds, as pure Lean definitions, the core of the repository:

* the JSON serialization format the writer relies on (a model of
  JavaScript JSON.stringify with a null replacer and a numeric indent),
* the helper functions of src/utils.ts
  (removeFirstAndLastBrackets, countNewLinesAndSpacesBeforeLastBracket),
* the tail scanning, insertion building and flush loop of
  src/JappendWriter.ts (readFileTail, buildInsertion, ensureAllIsFlushed),
* the buffering state machine around them (append, flush).

File contents are modelled as List Char, matching the semantics of the
repository's own InMemoryFileHandle test double (JS string slicing).
The file system is modelled as Option (List Char), where none is an
absent file; opening with flags a+ creates an empty file, opening with
flags r+ fails with a not-found error, following fs.open.
Asynchronous interleaving is modelled by per-iteration schedules: the
entries appended to the queue while a flush loop iteration is awaiting
I/O, and an optional injected I/O fault for that iteration.
-/

namespace Jappend

/-! ### JSON values -/

/-- A JSON-serializable value.  Numbers are modelled as integers
(the repository only ever serializes; no float arithmetic is involved). -/
inductive J where
  | jnull : J
  | jbool : Bool → J
  | jnum : Int → J
  | jstr : List Char → J
  | jarr : List J → J
  | jobj : List (List Char × J) → J

/-- JavaScript whitespace test used by String.prototype.trim and the
regular expression class backslash-s, restricted to the ASCII range. -/
def isWsChar (c : Char) : Bool :=
  c = ' ' || c = '\n' || c = '\t' || c = '\r' || c = Char.ofNat 11 || c = Char.ofNat 12

/-- A run of n space characters (the JS expression quote-space-quote .repeat(n)). -/
def sp (n : Nat) : List Char := List.replicate n ' '

/-- Decimal digits, least significant first accumulation; the fuel bounds
the number of divisions and is always sufficient at natToChars below. -/
def natToCharsAux : Nat → Nat → List Char → List Char
  | 0, _, acc => acc
  | fuel + 1, n, acc =>
      if n < 10 then Nat.digitChar n :: acc
      else natToCharsAux fuel (n / 10) (Nat.digitChar (n % 10) :: acc)

/-- Decimal digits of a natural number, most significant first. -/
def natToChars (n : Nat) : List Char := natToCharsAux (n + 1) n []

/-- Decimal rendering of an integer, as JSON.stringify renders integral numbers. -/
def intChars (i : Int) : List Char :=
  if i < 0 then '-' :: natToChars i.natAbs else natToChars i.natAbs

/-- JSON.stringify escaping of one character inside a string literal. -/
def escChar (c : Char) : List Char :=
  if c = '"' then ['\\', '"']
  else if c = '\\' then ['\\', '\\']
  else if c = '\n' then ['\\', 'n']
  else if c = '\r' then ['\\', 'r']
  else if c = '\t' then ['\\', 't']
  else if c = Char.ofNat 8 then ['\\', 'b']
  else if c = Char.ofNat 12 then ['\\', 'f']
  else if c.toNat < 32 then
    ['\\', 'u', '0', '0', Nat.digitChar (c.toNat / 16), Nat.digitChar (c.toNat % 16)]
  else [c]

/-- A JSON string literal: quote, escaped characters, quote. -/
def strChars (s : List Char) : List Char :=
  '"' :: s.flatMap escChar ++ ['"']

mutual

/-- Model of JSON.stringify(v, null, gap) at nesting depth d, where gap is
the (already clamped) number of indent spaces; gap = 0 is the compact form. -/
def serVal (g d : Nat) : J → List Char
  | .jnull => ['n', 'u', 'l', 'l']
  | .jbool true => ['t', 'r', 'u', 'e']
  | .jbool false => ['f', 'a', 'l', 's', 'e']
  | .jnum i => intChars i
  | .jstr s => strChars s
  | .jarr [] => ['[', ']']
  | .jarr (x :: xs) =>
      if g = 0 then
        '[' :: serItemsC g (x :: xs) ++ [']']
      else
        '[' :: '\n' :: serItemsP g (d + 1) (x :: xs) ++ '\n' :: sp (g * d) ++ [']']
  | .jobj [] => [Char.ofNat 123, Char.ofNat 125]
  | .jobj (p :: ps) =>
      if g = 0 then
        Char.ofNat 123 :: serPairsC g (p :: ps) ++ [Char.ofNat 125]
      else
        Char.ofNat 123 :: '\n' :: serPairsP g (d + 1) (p :: ps) ++
          '\n' :: sp (g * d) ++ [Char.ofNat 125]

/-- Compact array items joined by commas. -/
def serItemsC (g : Nat) : List J → List Char
  | [] => []
  | [x] => serVal g 0 x
  | x :: y :: xs => serVal g 0 x ++ ',' :: serItemsC g (y :: xs)

/-- Pretty array items, each on its own line indented to depth d, joined by
comma plus newline. -/
def serItemsP (g d : Nat) : List J → List Char
  | [] => []
  | [x] => sp (g * d) ++ serVal g d x
  | x :: y :: xs => sp (g * d) ++ serVal g d x ++ ',' :: '\n' :: serItemsP g d (y :: xs)

/-- Compact object members key colon value joined by commas. -/
def serPairsC (g : Nat) : List (List Char × J) → List Char
  | [] => []
  | [p] => strChars p.1 ++ ':' :: serVal g 0 p.2
  | p :: q :: ps => strChars p.1 ++ ':' :: serVal g 0 p.2 ++ ',' :: serPairsC g (q :: ps)

/-- Pretty object members, each on its own line indented to depth d. -/
def serPairsP (g d : Nat) : List (List Char × J) → List Char
  | [] => []
  | [p] => sp (g * d) ++ strChars p.1 ++ ':' :: ' ' :: serVal g d p.2
  | p :: q :: ps =>
      sp (g * d) ++ strChars p.1 ++ ':' :: ' ' :: serVal g d p.2 ++
        ',' :: '\n' :: serPairsP g d (q :: ps)

end

/-- JSON.stringify(v, null, indent): the indent is clamped to at most 10
space characters, then the value is rendered at depth 0. -/
def jsonStringify (indent : Nat) (v : J) : List Char :=
  serVal (min indent 10) 0 v

/-! ### Text utilities (src/utils.ts and String.prototype helpers) -/

/-- JS String.prototype.trim: strip whitespace from both ends. -/
def trimChars (l : List Char) : List Char :=
  ((l.dropWhile isWsChar).reverse.dropWhile isWsChar).reverse

/-- JS String.prototype.lastIndexOf for the closing bracket: the index of
the last occurrence, or none (the JS code uses the sentinel -1). -/
def lastBracketIdx (l : List Char) : Option Nat :=
  match l.reverse.findIdx? (fun c => c = ']') with
  | none => none
  | some j => some (l.length - 1 - j)

/-- src/utils.ts removeFirstAndLastBrackets: text.slice(1, length - 1).trim(). -/
def removeFirstAndLastBrackets (text : List Char) : List Char :=
  trimChars ((text.drop 1).take (text.length - 2))

/-- src/utils.ts countNewLinesAndSpacesBeforeLastBracket: when pretty, the
number of consecutive whitespace characters immediately preceding index
lastBracketIndex of fileTail, scanning downward; 0 otherwise. -/
def countNewLinesAndSpacesBeforeLastBracket (fileTail : List Char)
    (lastBracketIndex : Nat) (pretty : Bool) : Nat :=
  if pretty then ((fileTail.take lastBracketIndex).reverse.takeWhile isWsChar).length
  else 0

/-- The regular expression test of JappendWriter.buildInsertion, anchored at
the end: a character that is neither whitespace nor an opening bracket,
followed by optional whitespace, followed by the final closing bracket. -/
def commaTest (s : List Char) : Bool :=
  match s.reverse with
  | c0 :: rest =>
      if c0 = ']' then
        match rest.dropWhile isWsChar with
        | c :: _ => decide (c ≠ '[')
        | [] => false
      else false
  | [] => false

/-! ### Writer configuration -/

/-- The writer configuration after JappendWriter.convertOptions: all fields
resolved.  The flush threshold is some n for a finite positive bound and
none for Infinity (never full). -/
structure Opts where
  pretty : Bool
  indent : Nat
  initArray : Bool
  threshold : Option Nat

/-- JappendWriter.convertOptions: defaults are pretty = true, indent = 2
(forced to 0 when pretty is off), initArray = true, threshold = 1. -/
def convertOptions (pretty? : Option Bool) (indent? : Option Nat)
    (initArray? : Option Bool) (threshold? : Option (Option Nat)) : Opts :=
  let p := pretty?.getD true
  { pretty := p
    indent := if p then indent?.getD 2 else 0
    initArray := initArray?.getD true
    threshold := threshold?.getD (some 1) }

/-- The all-default configuration (as built by new JappendWriter(path)). -/
def defOpts : Opts := convertOptions none none none none

/-- Canonical file content: the serialization of a JSON array of entries
with the writer's configured indent, exactly as the writer itself produces. -/
def serTop (opts : Opts) (l : List J) : List Char :=
  jsonStringify opts.indent (.jarr l)

/-! ### Tail scanner and insertion builder (JappendWriter) -/

/-- Result of JappendWriter.readFileTail. -/
structure TailInfo where
  fileTail : List Char
  lastBracketIndex : Option Nat
  trimmedFileTail : List Char
  readPosition : Nat

/-- JappendWriter.readFileTail as a pure function of the file content:
stat the size, read the final window of at most 50 bytes, locate the last
closing bracket in the window and trim the window. -/
def readFileTail (content : List Char) : TailInfo :=
  let size := content.length
  let bufferSize := min size 50
  let readPosition := size - bufferSize
  let fileTail := (content.drop readPosition).take bufferSize
  { fileTail := fileTail
    lastBracketIndex := lastBracketIdx fileTail
    trimmedFileTail := trimChars fileTail
    readPosition := readPosition }

/-- Result of JappendWriter.buildInsertion. -/
structure Insertion where
  insertion : List Char
  truncatePosition : Nat

/-- JappendWriter.buildInsertion: serialize the pending batch, strip the
outer brackets, decide the separating comma from the trimmed tail, add the
pretty newline and indentation, and compute the truncate position from the
window position of the last bracket minus the whitespace run before it. -/
def buildInsertion (opts : Opts) (dataToWrite : List J) (lastBracketIndex : Nat)
    (readPosition : Nat) (fileTail : List Char) (trimmedFileTail : List Char) :
    Insertion :=
  let jsonString := removeFirstAndLastBrackets (jsonStringify opts.indent (.jarr dataToWrite))
  let shouldInsertComma := commaTest trimmedFileTail
  let maybeNewLine : List Char := if opts.pretty then ['\n'] else []
  let maybeIndentation : List Char := if opts.pretty then sp opts.indent else []
  { insertion :=
      (if shouldInsertComma then [','] else []) ++ maybeNewLine ++ maybeIndentation ++
        jsonString ++ maybeNewLine ++ [']']
    truncatePosition :=
      readPosition + lastBracketIndex -
        countNewLinesAndSpacesBeforeLastBracket fileTail lastBracketIndex opts.pretty }

/-! ### File system model -/

/-- The state of the target file: none when absent. -/
def FileState := Option (List Char)

/-- Errors a flush cycle can surface. -/
inductive Err where
  | ioFault : Err
  | notFound : Err
  | invalidArray : Err
deriving DecidableEq

/-- fs.open on the target path: flags a+ (initArray on) creates an empty
file when absent; flags r+ (initArray off) fails with ENOENT when absent. -/
def fileOpenM (initArray : Bool) (fs : FileState) : Except Err (List Char) :=
  match fs, initArray with
  | some c, _ => .ok c
  | none, true => .ok []
  | none, false => .error .notFound

/-- A positional write (FileHandle.write with an explicit position), as
implemented by the repository's InMemoryFileHandle: splice the data over
the content at the position. -/
def writeAt (content : List Char) (pos : Nat) (data : List Char) : List Char :=
  content.take pos ++ data ++ content.drop (pos + data.length)

/-- Where an injected I/O fault strikes inside one flush loop iteration. -/
inductive FaultPoint where
  | atOpen : FaultPoint
  | atRead : FaultPoint
  | atTruncate : FaultPoint
  | atWrite : FaultPoint
deriving DecidableEq

/-! ### One iteration of the flush loop -/

/-- Outcome of one iteration of the while loop in ensureAllIsFlushed. -/
structure IterOut where
  fs : FileState
  err : Option Err
  opened : Bool
  writes : Nat

/-- One iteration of the while loop of JappendWriter.ensureAllIsFlushed,
acting on the drained batch: open the file, read its tail; on an
effectively empty file with initArray write the whole serialized batch;
otherwise require a closing bracket, build the insertion, truncate and
write.  The optional fault makes the corresponding file operation fail. -/
def runIter (opts : Opts) (fs : FileState) (dataToWrite : List J)
    (fault : Option FaultPoint) : IterOut :=
  if fault = some .atOpen then ⟨fs, some .ioFault, false, 0⟩ else
  match fileOpenM opts.initArray fs with
  | .error e => ⟨fs, some e, false, 0⟩
  | .ok content =>
    if fault = some .atRead then ⟨some content, some .ioFault, true, 0⟩ else
    let t := readFileTail content
    if t.trimmedFileTail = [] ∧ opts.initArray then
      if fault = some .atWrite then ⟨some content, some .ioFault, true, 0⟩
      else ⟨some (content ++ jsonStringify opts.indent (.jarr dataToWrite)), none, true, 1⟩
    else
      match t.lastBracketIndex with
      | none => ⟨some content, some .invalidArray, true, 0⟩
      | some lbi =>
        let bi := buildInsertion opts dataToWrite lbi t.readPosition t.fileTail
          t.trimmedFileTail
        if fault = some .atTruncate then ⟨some content, some .ioFault, true, 0⟩ else
        let truncated := content.take bi.truncatePosition
        if fault = some .atWrite then ⟨some truncated, some .ioFault, true, 0⟩
        else ⟨some (writeAt truncated bi.truncatePosition bi.insertion), none, true, 1⟩

/-! ### The flush loop -/

/-- What happens around one iteration of the flush loop: the entries pushed
to the queue while this iteration was awaiting I/O, and an optional
injected fault for this iteration. -/
structure IterSpec where
  arrivals : List J
  fault : Option FaultPoint

/-- Outcome of a whole ensureAllIsFlushed call: final file state, final
queue, entries written, the propagated error if any, the number of
successful fileOpen calls, the number of close calls, and the number of
write calls. -/
structure RunOut where
  fs : FileState
  buffer : List J
  written : List J
  err : Option Err
  opened : Nat
  closed : Nat
  writes : Nat

/-- The while loop of JappendWriter.ensureAllIsFlushed with the catch and
finally blocks.  Each iteration drains the whole queue into dataToWrite and
runs one iteration; the entries of the iteration's schedule arrive in the
queue during it.  On an error the drained batch is unshifted back in front
of the arrivals and the error kept.  The finally clause closes only the
handle currently held in the fileHandle variable, hence at most one close.
Arguments after the schedule are accumulators: file state, queue, written
entries, successful opens, whether a handle is held, writes so far. -/
def ensureLoop (opts : Opts) : List IterSpec → FileState → List J → List J →
    Nat → Bool → Nat → RunOut
  | _, fs, [], written, opened, cur, writes =>
      ⟨fs, [], written, none, opened, if cur then 1 else 0, writes⟩
  | [], fs, buffer, written, opened, cur, writes =>
      let o := runIter opts fs buffer none
      let opened1 := opened + (if o.opened then 1 else 0)
      let cur1 := cur || o.opened
      match o.err with
      | some e => ⟨o.fs, buffer, written, some e, opened1, if cur1 then 1 else 0,
          writes + o.writes⟩
      | none => ⟨o.fs, [], written ++ buffer, none, opened1, if cur1 then 1 else 0,
          writes + o.writes⟩
  | spec :: rest, fs, buffer, written, opened, cur, writes =>
      let o := runIter opts fs buffer spec.fault
      let opened1 := opened + (if o.opened then 1 else 0)
      let cur1 := cur || o.opened
      match o.err with
      | some e => ⟨o.fs, buffer ++ spec.arrivals, written, some e, opened1,
          if cur1 then 1 else 0, writes + o.writes⟩
      | none => ensureLoop opts rest o.fs spec.arrivals (written ++ buffer) opened1 cur1
          (writes + o.writes)

/-- JappendWriter.ensureAllIsFlushed: an immediate return on an empty
queue, otherwise the drain loop, under the given interleaving schedule. -/
def ensureAllIsFlushed (opts : Opts) (fs : FileState) (buffer : List J)
    (sched : List IterSpec) : RunOut :=
  ensureLoop opts sched fs buffer [] 0 false 0

/-! ### The buffering state machine (append and flush) -/

/-- The mutable state of a JappendWriter between operations: the pending
entry queue, the one-way shutdown latch, and whether a flush promise is
currently in flight. -/
structure WriterState where
  buffer : List J
  isShutdown : Bool
  inFlight : Bool

/-- The synchronous prologue of JappendWriter.flush: latch shutdown when
requested; when a flush promise already exists return it (second component
false: no new cycle is started), otherwise install a new one (true). -/
def flushEnter (w : WriterState) (shutdown : Bool) : WriterState × Bool :=
  if w.inFlight then ({ w with isShutdown := w.isShutdown || shutdown }, false)
  else ({ w with isShutdown := w.isShutdown || shutdown, inFlight := true }, true)

/-- JappendWriter.isFull: queue length has reached the threshold (never
true for Infinity). -/
def isFull (buffer : List J) (threshold : Option Nat) : Bool :=
  match threshold with
  | none => false
  | some t => buffer.length ≥ t

/-- JappendWriter.append without the triggered flush: a no-op when shut
down, otherwise push; the boolean tells whether the threshold was reached
and this.flush() was returned to the caller. -/
def appendStep (w : WriterState) (v : J) (threshold : Option Nat) :
    WriterState × Bool :=
  if w.isShutdown then (w, false)
  else
    let w1 := { w with buffer := w.buffer ++ [v] }
    (w1, isFull w1.buffer threshold)

/-- Outcome of an append call composed with the flush it may trigger. -/
structure AppendOut where
  w : WriterState
  fs : FileState
  err : Option Err
  triggered : Bool

/-- JappendWriter.append composed with the triggered flush run to
completion (for a writer with no other flush in flight, the triggered
flush starts a cycle; its settlement is the value append returns). -/
def appendFlush (opts : Opts) (w : WriterState) (fs : FileState) (v : J)
    (sched : List IterSpec) : AppendOut :=
  let (w1, trig) := appendStep w v opts.threshold
  if trig then
    let (w2, started) := flushEnter w1 false
    if started then
      let r := ensureAllIsFlushed opts fs w2.buffer sched
      ⟨{ w2 with buffer := r.buffer, inFlight := false }, r.fs, r.err, true⟩
    else ⟨w2, fs, none, true⟩
  else ⟨w1, fs, none, false⟩

/-! ### Derived definitions used by the specification statements -/

/-- Configurations as produced by convertOptions with a sane indent: either
compact (indent forced to 0), or pretty with an indent between 1 and 10
(within the clamp of JSON.stringify, so the writer's own indentation
matches the serializer's). -/
def GoodOpts (opts : Opts) : Prop :=
  (opts.pretty = false ∧ opts.indent = 0) ∨
  (opts.pretty = true ∧ 1 ≤ opts.indent ∧ opts.indent ≤ 10)

/-- The scan-then-build composition of one flush iteration: read the file
tail and, when a closing bracket exists, build the insertion patch. -/
def scanAndBuild (opts : Opts) (dataToWrite : List J) (content : List Char) :
    Option Insertion :=
  let t := readFileTail content
  match t.lastBracketIndex with
  | none => none
  | some lbi => some (buildInsertion opts dataToWrite lbi t.readPosition t.fileTail
      t.trimmedFileTail)

/-- What the comma-insertion regular expression recognizes, as a predicate:
the string ends in a character that is neither whitespace nor an opening
bracket, followed by whitespace only, followed by the closing bracket. -/
def CommaSpec (s : List Char) : Prop :=
  ∃ a c w, s = a ++ (c :: (w ++ [']'])) ∧ isWsChar c = false ∧ c ≠ '[' ∧
    ∀ x ∈ w, isWsChar x = true

/-- Digits to a natural number, most significant first. -/
def digitsToNat (ds : List Char) : Nat :=
  ds.foldl (fun acc c => acc * 10 + (c.toNat - 48)) 0

/-- Decimal digit test for the parser. -/
def isDigitChar (c : Char) : Bool := 48 ≤ c.toNat && c.toNat ≤ 57

/-- String literal body parser: consumes up to the closing quote, decoding
the basic escapes. -/
def parseStrBody : List Char → List Char → Option (List Char × List Char)
  | '"' :: r, acc => some (acc.reverse, r)
  | '\\' :: e :: r, acc =>
      if e = '"' then parseStrBody r ('"' :: acc)
      else if e = '\\' then parseStrBody r ('\\' :: acc)
      else if e = '/' then parseStrBody r ('/' :: acc)
      else if e = 'n' then parseStrBody r ('\n' :: acc)
      else if e = 't' then parseStrBody r ('\t' :: acc)
      else if e = 'r' then parseStrBody r ('\r' :: acc)
      else if e = 'b' then parseStrBody r (Char.ofNat 8 :: acc)
      else if e = 'f' then parseStrBody r (Char.ofNat 12 :: acc)
      else none
  | c :: r, acc => parseStrBody r (c :: acc)
  | [], _ => none

mutual

/-- A whitespace-tolerant JSON value parser on explicit fuel, used to state
what re-parsing a file yields.  Numbers cover the integral forms the
writer's serializer emits. -/
def parseVal : Nat → List Char → Option (J × List Char)
  | 0, _ => none
  | fuel + 1, l =>
    match l.dropWhile isWsChar with
    | 'n' :: 'u' :: 'l' :: 'l' :: r => some (.jnull, r)
    | 't' :: 'r' :: 'u' :: 'e' :: r => some (.jbool true, r)
    | 'f' :: 'a' :: 'l' :: 's' :: 'e' :: r => some (.jbool false, r)
    | '"' :: r =>
      match parseStrBody r [] with
      | some (s, r2) => some (.jstr s, r2)
      | none => none
    | '[' :: r =>
      match parseItems fuel r with
      | some (items, r2) => some (.jarr items, r2)
      | none => none
    | c :: r =>
      if c = Char.ofNat 123 then
        match parseMembers fuel r with
        | some (ms, r2) => some (.jobj ms, r2)
        | none => none
      else if c = '-' then
        match (r.takeWhile isDigitChar, r.dropWhile isDigitChar) with
        | ([], _) => none
        | (ds, r2) => some (.jnum (-(digitsToNat ds : Int)), r2)
      else if isDigitChar c then
        some (.jnum (digitsToNat ((c :: r).takeWhile isDigitChar)),
          (c :: r).dropWhile isDigitChar)
      else none
    | [] => none

/-- Array items after the opening bracket. -/
def parseItems : Nat → List Char → Option (List J × List Char)
  | 0, _ => none
  | fuel + 1, l =>
    match l.dropWhile isWsChar with
    | ']' :: r => some ([], r)
    | _ =>
      match parseVal fuel l with
      | none => none
      | some (v, r) =>
        match parseItemsRest fuel r with
        | none => none
        | some (vs, r2) => some (v :: vs, r2)

/-- Array items after a parsed value: a separator and another item, or the
closing bracket. -/
def parseItemsRest : Nat → List Char → Option (List J × List Char)
  | 0, _ => none
  | fuel + 1, l =>
    match l.dropWhile isWsChar with
    | ']' :: r => some ([], r)
    | ',' :: r =>
      match parseVal fuel r with
      | none => none
      | some (v, r2) =>
        match parseItemsRest fuel r2 with
        | none => none
        | some (vs, r3) => some (v :: vs, r3)
    | _ => none

/-- Object members after the opening brace. -/
def parseMembers : Nat → List Char → Option (List (List Char × J) × List Char)
  | 0, _ => none
  | fuel + 1, l =>
    match l.dropWhile isWsChar with
    | c :: r =>
      if c = Char.ofNat 125 then some ([], r)
      else if c = '"' then
        match parseStrBody r [] with
        | none => none
        | some (k, r2) =>
          match r2.dropWhile isWsChar with
          | ':' :: r3 =>
            match parseVal fuel r3 with
            | none => none
            | some (v, r4) =>
              match parseMembersRest fuel r4 with
              | none => none
              | some (ms, r5) => some ((k, v) :: ms, r5)
          | _ => none
      else none
    | [] => none

/-- Object members after a parsed member. -/
def parseMembersRest : Nat → List Char → Option (List (List Char × J) × List Char)
  | 0, _ => none
  | fuel + 1, l =>
    match l.dropWhile isWsChar with
    | c :: r =>
      if c = Char.ofNat 125 then some ([], r)
      else if c = ',' then
        match r.dropWhile isWsChar with
        | '"' :: r1 =>
          match parseStrBody r1 [] with
          | none => none
          | some (k, r2) =>
            match r2.dropWhile isWsChar with
            | ':' :: r3 =>
              match parseVal fuel r3 with
              | none => none
              | some (v, r4) =>
                match parseMembersRest fuel r4 with
                | none => none
                | some (ms, r5) => some ((k, v) :: ms, r5)
            | _ => none
        | _ => none
      else none
    | [] => none

end

/-- Parse a whole file as one JSON value followed only by whitespace. -/
def jsonParseTop (l : List Char) : Option J :=
  match parseVal (l.length + 2) l with
  | some (v, r) => if r.dropWhile isWsChar = [] then some v else none
  | none => none

/-! ### Character and serializer facts -/

/-- The first character of a piece of serialized output: not whitespace and
not a comma (used to locate item boundaries after trimming). -/
def goodHead (s : List Char) : Prop :=
  ∃ c t, s = c :: t ∧ isWsChar c = false ∧ c ≠ ','

/-- The final character of a piece of serialized output: not whitespace and
not an opening bracket (used by the comma decision on the trimmed tail). -/
def goodLast (s : List Char) : Prop :=
  ∃ c, s.getLast? = some c ∧ isWsChar c = false ∧ c ≠ '['

theorem sp_all_ws {n : Nat} : ∀ c ∈ sp n, isWsChar c = true := by
  intro c hc
  have : c = ' ' := List.eq_of_mem_replicate hc
  subst this
  decide

theorem goodLast_singleton {c : Char} (h1 : isWsChar c = false) (h2 : c ≠ '[') :
    goodLast [c] :=
  ⟨c, rfl, h1, h2⟩

theorem goodLast_append {l₁ l₂ : List Char} (h : goodLast l₂) : goodLast (l₁ ++ l₂) := by
  obtain ⟨c, hc, h1, h2⟩ := h
  refine ⟨c, ?_, h1, h2⟩
  rw [List.getLast?_append, hc]
  rfl

theorem goodLast_cons {x : Char} {l : List Char} (h : goodLast l) : goodLast (x :: l) := by
  have h2 : goodLast ([x] ++ l) := goodLast_append h
  simpa using h2

theorem digit_not_ws {c : Char} (h : c.isDigit = true) :
    isWsChar c = false ∧ c ≠ ',' ∧ c ≠ '[' := by
  simp only [Char.isDigit, decide_eq_true_eq, Bool.and_eq_true] at h
  obtain ⟨hlo, hhi⟩ := h
  refine ⟨?_, ?_, ?_⟩
  · simp only [isWsChar, Bool.or_eq_false_iff, decide_eq_false_iff_not]
    refine ⟨⟨⟨⟨⟨?_, ?_⟩, ?_⟩, ?_⟩, ?_⟩, ?_⟩ <;>
      · intro hEq
        subst hEq
        exact absurd hlo (by decide)
  · intro hEq
    subst hEq
    exact absurd hlo (by decide)
  · intro hEq
    subst hEq
    exact absurd hhi (by decide)

theorem digitChar_isDigit {n : Nat} (h : n < 10) : (Nat.digitChar n).isDigit = true := by
  interval_cases n <;> decide

theorem natToCharsAux_digits :
    ∀ fuel n acc, (∀ c ∈ acc, c.isDigit = true) →
      ∀ c ∈ natToCharsAux fuel n acc, c.isDigit = true := by
  intro fuel
  induction fuel with
  | zero => intro n acc hacc c hc; exact hacc c hc
  | succ f ih =>
    intro n acc hacc c hc
    rw [natToCharsAux] at hc
    by_cases h : n < 10
    · simp only [h, if_pos, List.mem_cons] at hc
      rcases hc with hc | hc
      · subst hc; exact digitChar_isDigit h
      · exact hacc c hc
    · simp only [h, if_neg, not_false_iff] at hc
      refine ih (n / 10) _ ?_ c hc
      intro x hx
      rcases List.mem_cons.mp hx with hx | hx
      · subst hx; exact digitChar_isDigit (Nat.mod_lt n (by omega))
      · exact hacc x hx

theorem natToCharsAux_ne_nil_of_acc :
    ∀ fuel n acc, acc ≠ [] → natToCharsAux fuel n acc ≠ [] := by
  intro fuel
  induction fuel with
  | zero => intro n acc hacc; exact hacc
  | succ f ih =>
    intro n acc hacc
    rw [natToCharsAux]
    by_cases h : n < 10
    · simp [h]
    · simp only [h, if_neg, not_false_iff]
      exact ih (n / 10) _ (by simp)

theorem natToChars_ne_nil (n : Nat) : natToChars n ≠ [] := by
  rw [natToChars, natToCharsAux]
  by_cases h : n < 10
  · simp [h]
  · simp only [h, if_neg, not_false_iff]
    exact natToCharsAux_ne_nil_of_acc n (n / 10) _ (by simp)

theorem natToChars_digits {n : Nat} : ∀ c ∈ natToChars n, c.isDigit = true :=
  natToCharsAux_digits (n + 1) n [] (by simp)

theorem goodHead_natToChars (n : Nat) : goodHead (natToChars n) := by
  rcases hl : natToChars n with _ | ⟨c, t⟩
  · exact absurd hl (natToChars_ne_nil n)
  · have hc : c.isDigit = true := natToChars_digits c (by rw [hl]; exact List.mem_cons_self c t)
    obtain ⟨h1, h2, _⟩ := digit_not_ws hc
    exact ⟨c, t, rfl, h1, h2⟩

theorem mem_of_getLast?_eq : ∀ {l : List Char} {c : Char}, l.getLast? = some c → c ∈ l := by
  intro l
  induction l with
  | nil => intro c h; simp at h
  | cons a t ih =>
    intro c h
    cases t with
    | nil =>
      simp only [List.getLast?_singleton, Option.some.injEq] at h
      subst h
      exact List.mem_singleton_self a
    | cons b t2 =>
      rw [List.getLast?_cons_cons] at h
      exact List.mem_cons_of_mem _ (ih h)

theorem goodLast_natToChars (n : Nat) : goodLast (natToChars n) := by
  rcases hl : (natToChars n).getLast? with _ | c
  · rw [List.getLast?_eq_none_iff] at hl
    exact absurd hl (natToChars_ne_nil n)
  · have hc : c.isDigit = true := natToChars_digits c (mem_of_getLast?_eq hl)
    obtain ⟨h1, _, h3⟩ := digit_not_ws hc
    exact ⟨c, hl, h1, h3⟩

theorem goodHead_intChars (i : Int) : goodHead (intChars i) := by
  rw [intChars]
  by_cases h : i < 0
  · simp only [h, if_pos]
    exact ⟨'-', natToChars i.natAbs, rfl, by decide, by decide⟩
  · simp only [h, if_neg, not_false_iff]
    exact goodHead_natToChars i.natAbs

theorem goodLast_intChars (i : Int) : goodLast (intChars i) := by
  rw [intChars]
  by_cases h : i < 0
  · simp only [h, if_pos]
    exact goodLast_cons (goodLast_natToChars i.natAbs)
  · simp only [h, if_neg, not_false_iff]
    exact goodLast_natToChars i.natAbs

theorem goodLast_strChars (s : List Char) : goodLast (strChars s) := by
  rw [strChars]
  exact goodLast_cons (goodLast_append (goodLast_singleton (by decide) (by decide)))

theorem goodHead_serVal (g d : Nat) (v : J) : goodHead (serVal g d v) := by
  cases v with
  | jnull => exact ⟨'n', _, rfl, by decide, by decide⟩
  | jbool b =>
    cases b with
    | false => exact ⟨'f', _, rfl, by decide, by decide⟩
    | true => exact ⟨'t', _, rfl, by decide, by decide⟩
  | jnum i => exact goodHead_intChars i
  | jstr s => exact ⟨'"', _, rfl, by decide, by decide⟩
  | jarr l =>
    cases l with
    | nil => exact ⟨'[', _, rfl, by decide, by decide⟩
    | cons x xs =>
      show goodHead (serVal g d (.jarr (x :: xs)))
      simp only [serVal]
      split <;> exact ⟨'[', _, rfl, by decide, by decide⟩
  | jobj l =>
    cases l with
    | nil => exact ⟨Char.ofNat 123, _, rfl, by decide, by decide⟩
    | cons p ps =>
      show goodHead (serVal g d (.jobj (p :: ps)))
      simp only [serVal]
      split <;> exact ⟨Char.ofNat 123, _, rfl, by decide, by decide⟩

theorem goodLast_serVal (g d : Nat) (v : J) : goodLast (serVal g d v) := by
  have hRb : goodLast [']'] := goodLast_singleton (by decide) (by decide)
  have hCb : goodLast [Char.ofNat 125] := goodLast_singleton (by decide) (by decide)
  cases v with
  | jnull => exact ⟨'l', rfl, by decide, by decide⟩
  | jbool b =>
    cases b with
    | false => exact ⟨'e', rfl, by decide, by decide⟩
    | true => exact ⟨'e', rfl, by decide, by decide⟩
  | jnum i => exact goodLast_intChars i
  | jstr s => exact goodLast_strChars s
  | jarr l =>
    cases l with
    | nil => exact ⟨']', rfl, by decide, by decide⟩
    | cons x xs =>
      show goodLast (serVal g d (.jarr (x :: xs)))
      simp only [serVal]
      split
      · exact goodLast_append hRb
      · exact goodLast_append hRb
  | jobj l =>
    cases l with
    | nil => exact ⟨Char.ofNat 125, rfl, by decide, by decide⟩
    | cons p ps =>
      show goodLast (serVal g d (.jobj (p :: ps)))
      simp only [serVal]
      split
      · exact goodLast_append hCb
      · exact goodLast_append hCb

/-! ### Item list facts -/

theorem goodHead_append_left {s r : List Char} (h : goodHead s) : goodHead (s ++ r) := by
  obtain ⟨c, t, he, h1, h2⟩ := h
  subst he
  exact ⟨c, t ++ r, rfl, h1, h2⟩

theorem goodHead_ne_nil {s : List Char} (h : goodHead s) : s ≠ [] := by
  obtain ⟨c, t, he, _, _⟩ := h
  subst he
  simp

theorem goodLast_of_append_right {a m : List Char} (hm : m ≠ [])
    (h : goodLast (a ++ m)) : goodLast m := by
  obtain ⟨c, hc, h1, h2⟩ := h
  refine ⟨c, ?_, h1, h2⟩
  rw [List.getLast?_append] at hc
  rcases ho : m.getLast? with _ | x
  · rw [List.getLast?_eq_none_iff] at ho
    exact absurd ho hm
  · rw [ho] at hc
    simpa using hc

theorem serItemsP_goodLast (g d : Nat) :
    ∀ l : List J, l ≠ [] → goodLast (serItemsP g d l) := by
  intro l
  induction l with
  | nil => intro h; exact absurd rfl h
  | cons x xs ih =>
    intro _
    cases xs with
    | nil =>
      show goodLast (serItemsP g d [x])
      simp only [serItemsP]
      exact goodLast_append (goodLast_serVal g d x)
    | cons y ys =>
      show goodLast (serItemsP g d (x :: y :: ys))
      simp only [serItemsP]
      exact goodLast_append (goodLast_cons (goodLast_cons (ih (by simp))))

theorem serItemsC_goodLast (g : Nat) :
    ∀ l : List J, l ≠ [] → goodLast (serItemsC g l) := by
  intro l
  induction l with
  | nil => intro h; exact absurd rfl h
  | cons x xs ih =>
    intro _
    cases xs with
    | nil =>
      show goodLast (serItemsC g [x])
      simp only [serItemsC]
      exact goodLast_serVal g 0 x
    | cons y ys =>
      show goodLast (serItemsC g (x :: y :: ys))
      simp only [serItemsC]
      exact goodLast_append (goodLast_cons (ih (by simp)))

theorem serItemsC_goodHead (g : Nat) :
    ∀ l : List J, l ≠ [] → goodHead (serItemsC g l) := by
  intro l
  induction l with
  | nil => intro h; exact absurd rfl h
  | cons x xs _ =>
    intro _
    cases xs with
    | nil =>
      show goodHead (serItemsC g [x])
      simp only [serItemsC]
      exact goodHead_serVal g 0 x
    | cons y ys =>
      show goodHead (serItemsC g (x :: y :: ys))
      simp only [serItemsC]
      exact goodHead_append_left (goodHead_serVal g 0 x)

/-- A nonempty pretty item list is its indentation followed by text that
starts with a non-whitespace, non-comma character. -/
theorem serItemsP_decomp (g d : Nat) :
    ∀ l : List J, l ≠ [] → ∃ t, serItemsP g d l = sp (g * d) ++ t ∧ goodHead t := by
  intro l
  induction l with
  | nil => intro h; exact absurd rfl h
  | cons x xs _ =>
    intro _
    cases xs with
    | nil =>
      refine ⟨serVal g d x, ?_, goodHead_serVal g d x⟩
      simp only [serItemsP]
    | cons y ys =>
      refine ⟨serVal g d x ++ ',' :: '\n' :: serItemsP g d (y :: ys), ?_,
        goodHead_append_left (goodHead_serVal g d x)⟩
      simp only [serItemsP]
      simp [List.append_assoc]

theorem serItemsP_append (g d : Nat) :
    ∀ l₁ l₂ : List J, l₁ ≠ [] → l₂ ≠ [] →
      serItemsP g d (l₁ ++ l₂) = serItemsP g d l₁ ++ ',' :: '\n' :: serItemsP g d l₂ := by
  intro l₁
  induction l₁ with
  | nil => intro l₂ h _; exact absurd rfl h
  | cons x xs ih =>
    intro l₂ _ h₂
    cases xs with
    | nil =>
      cases l₂ with
      | nil => exact absurd rfl h₂
      | cons y ys =>
        show serItemsP g d (x :: y :: ys) = serItemsP g d [x] ++ ',' :: '\n' :: serItemsP g d (y :: ys)
        simp only [serItemsP]
    | cons z zs =>
      have step : (x :: z :: zs) ++ l₂ = x :: z :: (zs ++ l₂) := by simp
      rw [step]
      have h1 : serItemsP g d (x :: z :: (zs ++ l₂)) =
          sp (g * d) ++ serVal g d x ++ ',' :: '\n' :: serItemsP g d (z :: (zs ++ l₂)) := by
        simp only [serItemsP]
      rw [h1]
      have h2 : (z :: (zs ++ l₂)) = (z :: zs) ++ l₂ := by simp
      rw [h2, ih l₂ (by simp) h₂]
      have h3 : serItemsP g d (x :: z :: zs) =
          sp (g * d) ++ serVal g d x ++ ',' :: '\n' :: serItemsP g d (z :: zs) := by
        simp only [serItemsP]
      rw [h3]
      simp [List.append_assoc]

theorem serItemsC_append (g : Nat) :
    ∀ l₁ l₂ : List J, l₁ ≠ [] → l₂ ≠ [] →
      serItemsC g (l₁ ++ l₂) = serItemsC g l₁ ++ ',' :: serItemsC g l₂ := by
  intro l₁
  induction l₁ with
  | nil => intro l₂ h _; exact absurd rfl h
  | cons x xs ih =>
    intro l₂ _ h₂
    cases xs with
    | nil =>
      cases l₂ with
      | nil => exact absurd rfl h₂
      | cons y ys =>
        show serItemsC g (x :: y :: ys) = serItemsC g [x] ++ ',' :: serItemsC g (y :: ys)
        simp only [serItemsC]
    | cons z zs =>
      have step : (x :: z :: zs) ++ l₂ = x :: z :: (zs ++ l₂) := by simp
      rw [step]
      have h1 : serItemsC g (x :: z :: (zs ++ l₂)) =
          serVal g 0 x ++ ',' :: serItemsC g (z :: (zs ++ l₂)) := by
        simp only [serItemsC]
      rw [h1]
      have h2 : (z :: (zs ++ l₂)) = (z :: zs) ++ l₂ := by simp
      rw [h2, ih l₂ (by simp) h₂]
      have h3 : serItemsC g (x :: z :: zs) =
          serVal g 0 x ++ ',' :: serItemsC g (z :: zs) := by
        simp only [serItemsC]
      rw [h3]
      simp [List.append_assoc]

/-! ### Trim, dropWhile and window facts -/

theorem dropWhile_ws_all_append {a r : List Char} (ha : ∀ c ∈ a, isWsChar c = true) :
    (a ++ r).dropWhile isWsChar = r.dropWhile isWsChar := by
  induction a with
  | nil => rfl
  | cons x t ih =>
    have hx : isWsChar x = true := ha x (List.mem_cons_self x t)
    simp only [List.cons_append, List.dropWhile_cons, hx, if_pos]
    exact ih (fun c hc => ha c (List.mem_cons_of_mem x hc))

theorem dropWhile_ws_goodHead {m : List Char} (h : goodHead m) :
    m.dropWhile isWsChar = m := by
  obtain ⟨c, t, he, h1, _⟩ := h
  subst he
  simp [List.dropWhile_cons, h1]

/-- Trimming a string that is a whitespace sandwich around text with a
non-whitespace first and last character yields exactly that text. -/
theorem trimChars_sandwich {a m b : List Char} (ha : ∀ c ∈ a, isWsChar c = true)
    (hb : ∀ c ∈ b, isWsChar c = true) (hm1 : goodHead m) (hm2 : goodLast m) :
    trimChars (a ++ (m ++ b)) = m := by
  unfold trimChars
  rw [dropWhile_ws_all_append ha]
  have h1 : (m ++ b).dropWhile isWsChar = m ++ b := by
    obtain ⟨c, t, he, hc1, _⟩ := hm1
    subst he
    simp [List.dropWhile_cons, hc1]
  rw [h1, List.reverse_append]
  rw [dropWhile_ws_all_append (by intro c hc; exact hb c (List.mem_reverse.mp hc))]
  obtain ⟨c, hc, hc1, _⟩ := hm2
  have h2 : m.reverse.dropWhile isWsChar = m.reverse := by
    rcases hr : m.reverse with _ | ⟨x, t⟩
    · rfl
    · have : m.reverse.head? = some x := by rw [hr]; rfl
      rw [List.head?_reverse] at this
      rw [hc] at this
      have hx : x = c := by injection this.symm
      subst hx
      rw [hr] at *
      simp [List.dropWhile_cons, hc1]
  rw [h2, List.reverse_reverse]

theorem lastBracketIdx_concat (a : List Char) :
    lastBracketIdx (a ++ [']']) = some a.length := by
  unfold lastBracketIdx
  rw [List.reverse_append]
  simp [List.findIdx?_cons]

/-! ### Window and comma facts -/

theorem takeWhile_ws_stop {c0 : Char} (w r : List Char)
    (hw : ∀ c ∈ w, isWsChar c = true) (h0 : isWsChar c0 = false) :
    (w ++ c0 :: r).takeWhile isWsChar = w := by
  induction w with
  | nil => simp [List.takeWhile_cons, h0]
  | cons a t ih =>
    have ha : isWsChar a = true := hw a (List.mem_cons_self a t)
    simp only [List.cons_append, List.takeWhile_cons, ha, if_pos]
    rw [ih (fun c hc => hw c (List.mem_cons_of_mem a hc))]

theorem dropWhile_ws_stop {c0 : Char} (w r : List Char)
    (hw : ∀ c ∈ w, isWsChar c = true) (h0 : isWsChar c0 = false) :
    (w ++ c0 :: r).dropWhile isWsChar = c0 :: r := by
  rw [dropWhile_ws_all_append hw]
  simp [List.dropWhile_cons, h0]

/-- Trimming a string that ends with a good character, whitespace and the
closing bracket only strips leading whitespace. -/
theorem trimChars_keep {pre w : List Char} {c0 : Char}
    (_hw : ∀ c ∈ w, isWsChar c = true) (h1 : isWsChar c0 = false) :
    trimChars (pre ++ (c0 :: (w ++ [']']))) = pre.dropWhile isWsChar ++ (c0 :: (w ++ [']'])) := by
  unfold trimChars
  have hdrop : (pre ++ (c0 :: (w ++ [']']))).dropWhile isWsChar =
      pre.dropWhile isWsChar ++ (c0 :: (w ++ [']'])) := by
    rw [List.dropWhile_append]
    by_cases hp : (pre.dropWhile isWsChar).isEmpty
    · simp only [hp, if_pos]
      rw [List.isEmpty_iff] at hp
      rw [hp]
      simp [List.dropWhile_cons, h1]
    · simp [hp]
  rw [hdrop]
  have hrev : (pre.dropWhile isWsChar ++ (c0 :: (w ++ [']']))).reverse =
      ']' :: ((w.reverse ++ (c0 :: (pre.dropWhile isWsChar).reverse))) := by
    simp
  rw [hrev]
  have : (']' :: (w.reverse ++ (c0 :: (pre.dropWhile isWsChar).reverse))).dropWhile isWsChar =
      ']' :: (w.reverse ++ (c0 :: (pre.dropWhile isWsChar).reverse)) := by
    simp [List.dropWhile_cons, show isWsChar ']' = false from rfl]
  rw [this, ← hrev, List.reverse_reverse]

/-- On a tail whose last non-whitespace character before the bracket is a
good character, the comma test of the trimmed tail is positive. -/
theorem commaTest_trim {pre w : List Char} {c0 : Char}
    (hw : ∀ c ∈ w, isWsChar c = true) (h1 : isWsChar c0 = false) (h2 : c0 ≠ '[') :
    commaTest (trimChars (pre ++ (c0 :: (w ++ [']'])))) = true := by
  rw [trimChars_keep hw h1]
  unfold commaTest
  have hrev : (pre.dropWhile isWsChar ++ (c0 :: (w ++ [']']))).reverse =
      ']' :: (w.reverse ++ (c0 :: (pre.dropWhile isWsChar).reverse)) := by
    simp
  rw [hrev]
  have hdw : (w.reverse ++ (c0 :: (pre.dropWhile isWsChar).reverse)).dropWhile isWsChar =
      c0 :: (pre.dropWhile isWsChar).reverse :=
    dropWhile_ws_stop _ _ (fun c hc => hw c (List.mem_reverse.mp hc)) h1
  simp only [hdw]
  simp [h2]

theorem writeAt_append (c ins : List Char) : writeAt c c.length ins = c ++ ins := by
  unfold writeAt
  rw [List.take_of_length_le (Nat.le_refl _), List.drop_eq_nil_of_le (by omega)]
  simp

theorem readFileTail_fileTail (c : List Char) :
    (readFileTail c).fileTail = c.drop (c.length - min c.length 50) := by
  unfold readFileTail
  simp only
  apply List.take_of_length_le
  rw [List.length_drop]
  omega

/-- A suffix of length at most 50 survives whole into the read window. -/
theorem fileTail_split (Y s : List Char) (hs : s.length ≤ 50) :
    (readFileTail (Y ++ s)).fileTail =
      Y.drop ((Y ++ s).length - min (Y ++ s).length 50) ++ s := by
  rw [readFileTail_fileTail]
  apply List.drop_append_of_le_length
  rw [List.length_append]
  omega

/-- The decomposition of a nonempty list at its last element. -/
theorem eq_dropLast_concat {l : List Char} {c : Char} (h : l.getLast? = some c) :
    l = l.dropLast ++ [c] := by
  rcases hl : l with _ | ⟨a, t⟩
  · rw [hl] at h; simp at h
  · rw [← hl]
    have hne : l ≠ [] := by rw [hl]; simp
    have := List.dropLast_append_getLast hne
    rw [List.getLast?_eq_getLast _ hne] at h
    have hc : l.getLast hne = c := by injection h
    rw [← hc]
    exact this.symm


theorem sp_zero : sp 0 = [] := rfl

theorem sp_cons_all_ws {n : Nat} {c : Char} (hc : isWsChar c = true) :
    ∀ x ∈ c :: sp n, isWsChar x = true := by
  intro x hx
  rcases List.mem_cons.mp hx with hx | hx
  · subst hx; exact hc
  · exact sp_all_ws x hx

theorem trimChars_eq_self {m : List Char} (h1 : goodHead m) (h2 : goodLast m) :
    trimChars m = m := by
  have h3 : trimChars ([] ++ (m ++ [])) = m :=
    trimChars_sandwich (by simp) (by simp) h1 h2
  simpa using h3

/-- Stripping the outer brackets of a pretty-serialized nonempty batch and
restoring the indentation yields exactly the batch's item lines. -/
theorem removeBrackets_pretty (opts : Opts) (hi1 : 1 ≤ opts.indent) (hi10 : opts.indent ≤ 10)
    (data : List J) (hdata : data ≠ []) :
    sp opts.indent ++ removeFirstAndLastBrackets (jsonStringify opts.indent (.jarr data)) =
      serItemsP (min opts.indent 10) 1 data := by
  have hgi : min opts.indent 10 = opts.indent := Nat.min_eq_left hi10
  have hg1 : ¬ (min opts.indent 10 = 0) := by omega
  cases data with
  | nil => exact absurd rfl hdata
  | cons y ys =>
    obtain ⟨tD, htD, hhead⟩ := serItemsP_decomp (min opts.indent 10) 1 (y :: ys) (by simp)
    rw [Nat.mul_one] at htD
    have hlast : goodLast tD := by
      have := serItemsP_goodLast (min opts.indent 10) 1 (y :: ys) (by simp)
      rw [htD] at this
      exact goodLast_of_append_right (goodHead_ne_nil hhead) this
    have hs : jsonStringify opts.indent (.jarr (y :: ys)) =
        '[' :: '\n' :: (serItemsP (min opts.indent 10) 1 (y :: ys) ++ ['\n', ']']) := by
      unfold jsonStringify
      simp only [serVal, hg1, if_neg, Nat.mul_zero, sp_zero]
      simp
    rw [hs]
    unfold removeFirstAndLastBrackets
    have hlen : ('[' :: '\n' :: (serItemsP (min opts.indent 10) 1 (y :: ys) ++
        ['\n', ']'])).length = (serItemsP (min opts.indent 10) 1 (y :: ys)).length + 4 := by
      simp
    rw [hlen]
    have hdrop : ('[' :: '\n' :: (serItemsP (min opts.indent 10) 1 (y :: ys) ++
        ['\n', ']'])).drop 1 = '\n' :: (serItemsP (min opts.indent 10) 1 (y :: ys) ++
        ['\n', ']']) := rfl
    rw [hdrop]
    have htake : ('\n' :: (serItemsP (min opts.indent 10) 1 (y :: ys) ++ ['\n', ']'])).take
        ((serItemsP (min opts.indent 10) 1 (y :: ys)).length + 4 - 2) =
        '\n' :: (serItemsP (min opts.indent 10) 1 (y :: ys) ++ ['\n']) := by
      have h2 : (serItemsP (min opts.indent 10) 1 (y :: ys)).length + 4 - 2 =
          ((serItemsP (min opts.indent 10) 1 (y :: ys)).length + 1) + 1 := by omega
      rw [h2, List.take_succ_cons, List.take_append_eq_append_take,
        List.take_of_length_le (by omega)]
      simp
    rw [htake, htD]
    have hshape : ('\n' :: (sp (min opts.indent 10) ++ tD ++ ['\n'])) =
        ('\n' :: sp (min opts.indent 10)) ++ (tD ++ ['\n']) := by simp
    rw [hshape, trimChars_sandwich (sp_cons_all_ws (by decide)) (by simp; rfl) hhead hlast, hgi]

/-- Stripping the outer brackets of a compact-serialized nonempty batch
yields exactly the comma-joined items. -/
theorem removeBrackets_compact (opts : Opts) (hi0 : opts.indent = 0)
    (data : List J) (hdata : data ≠ []) :
    removeFirstAndLastBrackets (jsonStringify opts.indent (.jarr data)) =
      serItemsC 0 data := by
  cases data with
  | nil => exact absurd rfl hdata
  | cons y ys =>
    have hs : jsonStringify opts.indent (.jarr (y :: ys)) =
        '[' :: (serItemsC 0 (y :: ys) ++ [']']) := by
      unfold jsonStringify
      rw [hi0]
      simp only [serVal, Nat.min_self, Nat.zero_min, if_pos]
      simp
    rw [hs]
    unfold removeFirstAndLastBrackets
    have hlen : ('[' :: (serItemsC 0 (y :: ys) ++ [']'])).length =
        (serItemsC 0 (y :: ys)).length + 2 := by simp
    rw [hlen]
    have hdrop : ('[' :: (serItemsC 0 (y :: ys) ++ [']'])).drop 1 =
        serItemsC 0 (y :: ys) ++ [']'] := rfl
    rw [hdrop]
    have htake : (serItemsC 0 (y :: ys) ++ [']']).take
        ((serItemsC 0 (y :: ys)).length + 2 - 2) = serItemsC 0 (y :: ys) := by
      have h2 : (serItemsC 0 (y :: ys)).length + 2 - 2 =
          (serItemsC 0 (y :: ys)).length := by omega
      rw [h2]
      exact List.take_left _ _
    rw [htake]
    exact trimChars_eq_self (serItemsC_goodHead 0 _ (by simp)) (serItemsC_goodLast 0 _ (by simp))


/-! ### The canonical patch: scan and build on serialized content -/

theorem readFileTail_lastBracket_eq (c : List Char) :
    (readFileTail c).lastBracketIndex = lastBracketIdx ((readFileTail c).fileTail) := rfl

theorem readFileTail_trimmed_eq (c : List Char) :
    (readFileTail c).trimmedFileTail = trimChars ((readFileTail c).fileTail) := rfl

theorem readFileTail_readPosition_eq (c : List Char) :
    (readFileTail c).readPosition = c.length - min c.length 50 := rfl

/-- The two fields of buildInsertion written out. -/
theorem buildInsertion_eq (opts : Opts) (dataToWrite : List J) (lastBracketIndex : Nat)
    (readPosition : Nat) (fileTail trimmedFileTail : List Char) :
    buildInsertion opts dataToWrite lastBracketIndex readPosition fileTail trimmedFileTail =
      ⟨(if commaTest trimmedFileTail then [','] else []) ++
          (if opts.pretty then ['\n'] else []) ++
          (if opts.pretty then sp opts.indent else []) ++
          removeFirstAndLastBrackets (jsonStringify opts.indent (.jarr dataToWrite)) ++
          (if opts.pretty then ['\n'] else []) ++ [']'],
        readPosition + lastBracketIndex -
          countNewLinesAndSpacesBeforeLastBracket fileTail lastBracketIndex opts.pretty⟩ :=
  rfl

/-- Compact case, nonempty existing array: the patch recreates the
serialization of the extended array. -/
theorem scanBuild_compact_cons (opts : Opts) (hp : opts.pretty = false)
    (hi : opts.indent = 0) (x : J) (xs data : List J) (hdata : data ≠ []) :
    ∃ bi : Insertion,
      scanAndBuild opts data (serTop opts (x :: xs)) = some bi ∧
      (readFileTail (serTop opts (x :: xs))).trimmedFileTail ≠ [] ∧
      (serTop opts (x :: xs)).length - 50 ≤ bi.truncatePosition ∧
      bi.truncatePosition ≤ (serTop opts (x :: xs)).length ∧
      (serTop opts (x :: xs)).take bi.truncatePosition ++ bi.insertion =
        serTop opts ((x :: xs) ++ data) := by
  obtain ⟨X, hX, hX1, hX2⟩ := serItemsC_goodLast 0 (x :: xs) (by simp)
  have hsplit : serItemsC 0 (x :: xs) = (serItemsC 0 (x :: xs)).dropLast ++ [X] :=
    eq_dropLast_concat hX
  have hC : serTop opts (x :: xs) =
      ('[' :: (serItemsC 0 (x :: xs)).dropLast) ++ (X :: ([] ++ [']'])) := by
    unfold serTop jsonStringify
    rw [hi]
    simp only [serVal, Nat.zero_min, if_pos]
    rw [hsplit]
    simp
  set Y := '[' :: (serItemsC 0 (x :: xs)).dropLast with hY
  set C := serTop opts (x :: xs) with hCdef
  have hlenC : C.length = Y.length + 2 := by rw [hC]; simp
  set rp := C.length - min C.length 50 with hrp
  have hrpY : rp ≤ Y.length := by omega
  set pre := Y.drop rp with hpre
  have hft : (readFileTail C).fileTail = pre ++ (X :: ([] ++ [']'])) := by
    have h0 := fileTail_split Y (X :: ([] ++ [']'])) (by simp)
    rw [← hC] at h0
    rw [hpre, hrp]
    exact h0
  have hftshape : (readFileTail C).fileTail = (pre ++ [X]) ++ [']'] := by
    rw [hft]; simp
  have hlbi : (readFileTail C).lastBracketIndex = some (pre.length + 1) := by
    rw [readFileTail_lastBracket_eq, hftshape, lastBracketIdx_concat]
    simp
  have htrim : (readFileTail C).trimmedFileTail =
      pre.dropWhile isWsChar ++ (X :: ([] ++ [']'])) := by
    rw [readFileTail_trimmed_eq, hft]
    exact trimChars_keep (by simp) hX1
  have hcomma : commaTest (readFileTail C).trimmedFileTail = true := by
    rw [readFileTail_trimmed_eq, hft]
    exact commaTest_trim (by simp) hX1 hX2
  have hcount : countNewLinesAndSpacesBeforeLastBracket (readFileTail C).fileTail
      (pre.length + 1) opts.pretty = 0 := by
    unfold countNewLinesAndSpacesBeforeLastBracket
    rw [hp]
    simp
  have hcountF : countNewLinesAndSpacesBeforeLastBracket (readFileTail C).fileTail
      (pre.length + 1) false = 0 := by
    unfold countNewLinesAndSpacesBeforeLastBracket
    simp
  refine ⟨buildInsertion opts data (pre.length + 1) (readFileTail C).readPosition
      (readFileTail C).fileTail (readFileTail C).trimmedFileTail, ?_, ?_, ?_, ?_, ?_⟩
  · unfold scanAndBuild
    simp only [hlbi]
  · rw [htrim]
    simp
  · rw [buildInsertion_eq]
    simp only [readFileTail_readPosition_eq, hcount]
    omega
  · rw [buildInsertion_eq]
    simp only [readFileTail_readPosition_eq, hcount]
    have hprelen : pre.length = Y.length - rp := by rw [hpre, List.length_drop]
    omega
  · rw [buildInsertion_eq]
    simp only [readFileTail_readPosition_eq, hcomma, hp, if_pos, if_neg,
      Bool.false_eq_true, if_false]
    have hprelen : pre.length = Y.length - rp := by rw [hpre, List.length_drop]
    have htp : C.length - min C.length 50 + (pre.length + 1) - 0 = Y.length + 1 := by
      omega
    rw [hcountF, htp]
    have htake : C.take (Y.length + 1) = Y ++ [X] := by
      have hC2 : C = (Y ++ [X]) ++ [']'] := by rw [hC]; simp
      rw [hC2, show Y.length + 1 = (Y ++ [X]).length by simp, List.take_left]
    rw [htake, removeBrackets_compact opts hi data hdata]
    have hR : serTop opts ((x :: xs) ++ data) =
        '[' :: (serItemsC 0 ((x :: xs) ++ data) ++ [']']) := by
      unfold serTop jsonStringify
      rw [hi]
      have hcons : (x :: xs) ++ data = x :: (xs ++ data) := rfl
      rw [hcons]
      simp only [serVal, Nat.zero_min, if_pos]
      simp
    rw [hR, serItemsC_append 0 (x :: xs) data (by simp) hdata]
    rw [hY, hsplit]
    simp


/-- Pretty case, nonempty existing array. -/
theorem scanBuild_pretty_cons (opts : Opts) (hp : opts.pretty = true)
    (hi1 : 1 ≤ opts.indent) (hi10 : opts.indent ≤ 10)
    (x : J) (xs data : List J) (hdata : data ≠ []) :
    ∃ bi : Insertion,
      scanAndBuild opts data (serTop opts (x :: xs)) = some bi ∧
      (readFileTail (serTop opts (x :: xs))).trimmedFileTail ≠ [] ∧
      (serTop opts (x :: xs)).length - 50 ≤ bi.truncatePosition ∧
      bi.truncatePosition ≤ (serTop opts (x :: xs)).length ∧
      (serTop opts (x :: xs)).take bi.truncatePosition ++ bi.insertion =
        serTop opts ((x :: xs) ++ data) := by
  have hgne : ¬ (min opts.indent 10 = 0) := by omega
  obtain ⟨X, hX, hX1, hX2⟩ := serItemsP_goodLast (min opts.indent 10) 1 (x :: xs) (by simp)
  have hsplit : serItemsP (min opts.indent 10) 1 (x :: xs) =
      (serItemsP (min opts.indent 10) 1 (x :: xs)).dropLast ++ [X] :=
    eq_dropLast_concat hX
  have hC : serTop opts (x :: xs) =
      ('[' :: '\n' :: (serItemsP (min opts.indent 10) 1 (x :: xs)).dropLast) ++
        (X :: (['\n'] ++ [']'])) := by
    unfold serTop jsonStringify
    simp only [serVal, hgne, if_neg, Nat.mul_zero, sp_zero]
    rw [hsplit]
    simp
  set Y := '[' :: '\n' :: (serItemsP (min opts.indent 10) 1 (x :: xs)).dropLast with hY
  set C := serTop opts (x :: xs) with hCdef
  have hlenC : C.length = Y.length + 3 := by rw [hC]; simp
  set rp := C.length - min C.length 50 with hrp
  have hrpY : rp ≤ Y.length := by omega
  set pre := Y.drop rp with hpre
  have hft : (readFileTail C).fileTail = pre ++ (X :: (['\n'] ++ [']'])) := by
    have h0 := fileTail_split Y (X :: (['\n'] ++ [']'])) (by simp)
    rw [← hC] at h0
    rw [hpre, hrp]
    exact h0
  have hftshape : (readFileTail C).fileTail = ((pre ++ [X]) ++ ['\n']) ++ [']'] := by
    rw [hft]; simp
  have hlbi : (readFileTail C).lastBracketIndex = some (pre.length + 2) := by
    rw [readFileTail_lastBracket_eq, hftshape, lastBracketIdx_concat]
    simp
  have htrim : (readFileTail C).trimmedFileTail =
      pre.dropWhile isWsChar ++ (X :: (['\n'] ++ [']'])) := by
    rw [readFileTail_trimmed_eq, hft]
    exact trimChars_keep (by simp; rfl) hX1
  have hcomma : commaTest (readFileTail C).trimmedFileTail = true := by
    rw [readFileTail_trimmed_eq, hft]
    exact commaTest_trim (by simp; rfl) hX1 hX2
  have hcountT : countNewLinesAndSpacesBeforeLastBracket (readFileTail C).fileTail
      (pre.length + 2) true = 1 := by
    unfold countNewLinesAndSpacesBeforeLastBracket
    simp only [if_pos]
    rw [hft]
    have htk : (pre ++ (X :: (['\n'] ++ [']']))).take (pre.length + 2) =
        pre ++ [X, '\n'] := by
      rw [List.take_append_eq_append_take, List.take_of_length_le (by omega)]
      have h2 : pre.length + 2 - pre.length = 2 := by omega
      rw [h2]
      rfl
    rw [htk]
    have hrev : (pre ++ [X, '\n']).reverse = ['\n'] ++ (X :: pre.reverse) := by simp
    rw [hrev, takeWhile_ws_stop ['\n'] pre.reverse (by simp; rfl) hX1]
    rfl
  have hcount : countNewLinesAndSpacesBeforeLastBracket (readFileTail C).fileTail
      (pre.length + 2) opts.pretty = 1 := by rw [hp]; exact hcountT
  refine ⟨buildInsertion opts data (pre.length + 2) (readFileTail C).readPosition
      (readFileTail C).fileTail (readFileTail C).trimmedFileTail, ?_, ?_, ?_, ?_, ?_⟩
  · unfold scanAndBuild
    simp only [hlbi]
  · rw [htrim]
    simp
  · rw [buildInsertion_eq]
    simp only [readFileTail_readPosition_eq, hcount]
    omega
  · rw [buildInsertion_eq]
    simp only [readFileTail_readPosition_eq, hcount]
    have hprelen : pre.length = Y.length - rp := by rw [hpre, List.length_drop]
    omega
  · rw [buildInsertion_eq]
    simp only [readFileTail_readPosition_eq, hcomma, hp, if_pos]
    have hprelen : pre.length = Y.length - rp := by rw [hpre, List.length_drop]
    have htp : C.length - min C.length 50 + (pre.length + 2) - 1 = Y.length + 1 := by
      omega
    rw [hcountT, htp]
    have htake : C.take (Y.length + 1) = Y ++ [X] := by
      have hC2 : C = (Y ++ [X]) ++ ['\n', ']'] := by rw [hC]; simp
      rw [hC2, show Y.length + 1 = (Y ++ [X]).length by simp, List.take_left]
    rw [htake]
    have hR : serTop opts ((x :: xs) ++ data) =
        '[' :: '\n' :: (serItemsP (min opts.indent 10) 1 ((x :: xs) ++ data) ++
          ['\n', ']']) := by
      unfold serTop jsonStringify
      have hcons : (x :: xs) ++ data = x :: (xs ++ data) := rfl
      rw [hcons]
      simp only [serVal, hgne, if_neg, Nat.mul_zero, sp_zero]
      simp
    rw [hR, serItemsP_append (min opts.indent 10) 1 (x :: xs) data (by simp) hdata,
      ← removeBrackets_pretty opts hi1 hi10 data hdata]
    rw [hY, hsplit]
    simp

/-- Compact case, empty existing array. -/
theorem scanBuild_compact_nil (opts : Opts) (hp : opts.pretty = false)
    (hi : opts.indent = 0) (data : List J) (hdata : data ≠ []) :
    ∃ bi : Insertion,
      scanAndBuild opts data (serTop opts []) = some bi ∧
      (readFileTail (serTop opts [])).trimmedFileTail ≠ [] ∧
      (serTop opts []).length - 50 ≤ bi.truncatePosition ∧
      bi.truncatePosition ≤ (serTop opts []).length ∧
      (serTop opts []).take bi.truncatePosition ++ bi.insertion =
        serTop opts ([] ++ data) := by
  have hC : serTop opts [] = ['[', ']'] := rfl
  have hlbi : (readFileTail (serTop opts [])).lastBracketIndex = some 1 := rfl
  have hcomma : commaTest (readFileTail (serTop opts [])).trimmedFileTail = false := rfl
  refine ⟨buildInsertion opts data 1 (readFileTail (serTop opts [])).readPosition
      (readFileTail (serTop opts [])).fileTail
      (readFileTail (serTop opts [])).trimmedFileTail, ?_, ?_, ?_, ?_, ?_⟩
  · unfold scanAndBuild
    simp only [hlbi]
  · intro h
    exact absurd (hC ▸ h) (by decide)
  · rw [buildInsertion_eq]
    rw [hC]
    simp
  · rw [buildInsertion_eq]
    simp only [readFileTail_readPosition_eq, hp, hC]
    have : countNewLinesAndSpacesBeforeLastBracket
        (readFileTail (['[', ']'] : List Char)).fileTail 1 false = 0 := rfl
    simp [this]
  · rw [buildInsertion_eq]
    simp only [readFileTail_readPosition_eq, hcomma, hp, if_pos, if_neg,
      Bool.false_eq_true, if_false]
    have hcount : countNewLinesAndSpacesBeforeLastBracket
        (readFileTail (serTop opts [])).fileTail 1 false = 0 := rfl
    rw [hcount]
    have htp : (serTop opts []).length - min (serTop opts []).length 50 + 1 - 0 = 1 := by
      rw [hC]
      simp
    rw [htp]
    have htake : (serTop opts []).take 1 = ['['] := by rw [hC]; rfl
    rw [htake, removeBrackets_compact opts hi data hdata]
    cases data with
    | nil => exact absurd rfl hdata
    | cons y ys =>
      have hR : serTop opts ([] ++ (y :: ys)) =
          '[' :: (serItemsC 0 (y :: ys) ++ [']']) := by
        unfold serTop jsonStringify
        rw [hi]
        simp only [serVal, Nat.zero_min, if_pos]
        simp
      rw [hR]
      simp

/-- Pretty case, empty existing array. -/
theorem scanBuild_pretty_nil (opts : Opts) (hp : opts.pretty = true)
    (hi1 : 1 ≤ opts.indent) (hi10 : opts.indent ≤ 10)
    (data : List J) (hdata : data ≠ []) :
    ∃ bi : Insertion,
      scanAndBuild opts data (serTop opts []) = some bi ∧
      (readFileTail (serTop opts [])).trimmedFileTail ≠ [] ∧
      (serTop opts []).length - 50 ≤ bi.truncatePosition ∧
      bi.truncatePosition ≤ (serTop opts []).length ∧
      (serTop opts []).take bi.truncatePosition ++ bi.insertion =
        serTop opts ([] ++ data) := by
  have hgne : ¬ (min opts.indent 10 = 0) := by omega
  have hC : serTop opts [] = ['[', ']'] := rfl
  have hlbi : (readFileTail (serTop opts [])).lastBracketIndex = some 1 := rfl
  have hcomma : commaTest (readFileTail (serTop opts [])).trimmedFileTail = false := rfl
  have hcountT : countNewLinesAndSpacesBeforeLastBracket
      (readFileTail (serTop opts [])).fileTail 1 true = 0 := rfl
  refine ⟨buildInsertion opts data 1 (readFileTail (serTop opts [])).readPosition
      (readFileTail (serTop opts [])).fileTail
      (readFileTail (serTop opts [])).trimmedFileTail, ?_, ?_, ?_, ?_, ?_⟩
  · unfold scanAndBuild
    simp only [hlbi]
  · intro h
    exact absurd (hC ▸ h) (by decide)
  · rw [buildInsertion_eq]
    rw [hC]
    simp
  · rw [buildInsertion_eq]
    simp only [readFileTail_readPosition_eq, hp, hC]
    have hcount : countNewLinesAndSpacesBeforeLastBracket
        (readFileTail (['[', ']'] : List Char)).fileTail 1 true = 0 := rfl
    simp [hcount]
  · rw [buildInsertion_eq]
    simp only [readFileTail_readPosition_eq, hcomma, hp, if_pos,
      Bool.false_eq_true, if_false]
    rw [hcountT]
    have htp : (serTop opts []).length - min (serTop opts []).length 50 + 1 - 0 = 1 := by
      rw [hC]
      simp
    rw [htp]
    have htake : (serTop opts []).take 1 = ['['] := by rw [hC]; rfl
    rw [htake]
    cases data with
    | nil => exact absurd rfl hdata
    | cons y ys =>
      have hR : serTop opts ([] ++ (y :: ys)) =
          '[' :: '\n' :: (serItemsP (min opts.indent 10) 1 (y :: ys) ++ ['\n', ']']) := by
        unfold serTop jsonStringify
        simp only [serVal, hgne, if_neg, Nat.mul_zero, sp_zero]
        simp
      rw [hR, ← removeBrackets_pretty opts hi1 hi10 (y :: ys) (by simp)]
      simp

/-- The canonical patch lemma: on a file holding the serialization of an
array, the scan-and-build step succeeds and its truncate-and-write patch
turns the file into the serialization of the array with the batch
appended, touching only the final at-most-50-byte window. -/
theorem scanAndBuild_canonical (opts : Opts) (hG : GoodOpts opts)
    (old data : List J) (hdata : data ≠ []) :
    ∃ bi : Insertion,
      scanAndBuild opts data (serTop opts old) = some bi ∧
      (readFileTail (serTop opts old)).trimmedFileTail ≠ [] ∧
      (serTop opts old).length - 50 ≤ bi.truncatePosition ∧
      bi.truncatePosition ≤ (serTop opts old).length ∧
      (serTop opts old).take bi.truncatePosition ++ bi.insertion =
        serTop opts (old ++ data) := by
  rcases hG with ⟨hp, hi⟩ | ⟨hp, hi1, hi10⟩
  · cases old with
    | nil => exact scanBuild_compact_nil opts hp hi data hdata
    | cons x xs => exact scanBuild_compact_cons opts hp hi x xs data hdata
  · cases old with
    | nil => exact scanBuild_pretty_nil opts hp hi1 hi10 data hdata
    | cons x xs => exact scanBuild_pretty_cons opts hp hi1 hi10 x xs data hdata


/-! ### The flush iteration and loop on canonical content -/

/-- One fault-free flush iteration on a canonical file appends the batch:
it opens the file once, performs exactly one write, and leaves the file
holding the serialization of the extended array. -/
theorem runIter_canonical (opts : Opts) (hG : GoodOpts opts) (old data : List J)
    (hdata : data ≠ []) :
    runIter opts (some (serTop opts old)) data none =
      ⟨some (serTop opts (old ++ data)), none, true, 1⟩ := by
  obtain ⟨bi, hsb, htr, _hlow, hhigh, hpatch⟩ := scanAndBuild_canonical opts hG old data hdata
  have hopen : fileOpenM opts.initArray (some (serTop opts old)) =
      .ok (serTop opts old) := rfl
  cases hlb : (readFileTail (serTop opts old)).lastBracketIndex with
  | none =>
    unfold scanAndBuild at hsb
    simp [hlb] at hsb
  | some lbi =>
    have hbi : buildInsertion opts data lbi (readFileTail (serTop opts old)).readPosition
        (readFileTail (serTop opts old)).fileTail
        (readFileTail (serTop opts old)).trimmedFileTail = bi := by
      unfold scanAndBuild at hsb
      simp only [hlb] at hsb
      simpa using hsb
    have hcond : ¬((readFileTail (serTop opts old)).trimmedFileTail = [] ∧
        opts.initArray = true) := by
      rintro ⟨h1, _⟩
      exact htr h1
    unfold runIter
    rw [hopen]
    simp only [hlb, hbi, reduceCtorEq, if_false]
    rw [if_neg hcond]
    have hlen : ((serTop opts old).take bi.truncatePosition).length = bi.truncatePosition := by
      rw [List.length_take]
      omega
    have hw : writeAt ((serTop opts old).take bi.truncatePosition) bi.truncatePosition
        bi.insertion = (serTop opts old).take bi.truncatePosition ++ bi.insertion := by
      have h0 := writeAt_append ((serTop opts old).take bi.truncatePosition) bi.insertion
      rw [hlen] at h0
      exact h0
    rw [hw, hpatch]

/-- The flush loop on canonical content under a fault-free schedule of
nonempty arrival batches: every batch is drained within the same call, in
order; one write and one open per iteration; a single close at the end. -/
theorem ensureLoop_canonical (opts : Opts) (hG : GoodOpts opts) :
    ∀ (sched : List IterSpec), (∀ s ∈ sched, s.arrivals ≠ [] ∧ s.fault = none) →
    ∀ (old data : List J), data ≠ [] →
    ∀ (w0 : List J) (op0 : Nat) (cur0 : Bool) (wr0 : Nat),
      ensureLoop opts sched (some (serTop opts old)) data w0 op0 cur0 wr0 =
        ⟨some (serTop opts ((old ++ data) ++ (sched.map IterSpec.arrivals).flatten)), [],
          (w0 ++ data) ++ (sched.map IterSpec.arrivals).flatten, none,
          op0 + (sched.length + 1), 1, wr0 + (sched.length + 1)⟩ := by
  intro sched
  induction sched with
  | nil =>
    intro _ old data hdata w0 op0 cur0 wr0
    cases data with
    | nil => exact absurd rfl hdata
    | cons d ds =>
      show ensureLoop opts [] (some (serTop opts old)) (d :: ds) w0 op0 cur0 wr0 = _
      simp only [ensureLoop]
      rw [runIter_canonical opts hG old (d :: ds) (by simp)]
      simp
  | cons spec rest ih =>
    intro hs old data hdata w0 op0 cur0 wr0
    have hsp := hs spec (List.mem_cons_self spec rest)
    cases data with
    | nil => exact absurd rfl hdata
    | cons d ds =>
      show ensureLoop opts (spec :: rest) (some (serTop opts old)) (d :: ds)
        w0 op0 cur0 wr0 = _
      simp only [ensureLoop]
      rw [hsp.2, runIter_canonical opts hG old (d :: ds) (by simp)]
      simp only [if_true, Bool.or_true]
      rw [ih (fun s hsm => hs s (List.mem_cons_of_mem spec hsm)) (old ++ (d :: ds))
        spec.arrivals hsp.1 (w0 ++ (d :: ds)) (op0 + 1) true (wr0 + 1)]
      simp only [List.map_cons, List.flatten_cons, RunOut.mk.injEq, List.length_cons]
      refine ⟨by simp, trivial, by simp, trivial, by omega, trivial, by omega⟩


/-! ### Failure restoration -/

/-- Whenever the flush loop propagates an error, the final queue is exactly
the batch drained for the failing iteration, in order, re-inserted in front
of the entries that arrived during that iteration; and together with the
entries already written it accounts for every entry exactly once. -/
theorem ensureLoop_failure (opts : Opts) :
    ∀ (sched : List IterSpec) (fs : FileState) (b0 w0 : List J)
      (op0 : Nat) (cur0 : Bool) (wr0 : Nat),
      (ensureLoop opts sched fs b0 w0 op0 cur0 wr0).err ≠ none →
      ∃ m, m ≤ sched.length ∧
        (ensureLoop opts sched fs b0 w0 op0 cur0 wr0).buffer =
          (if m = 0 then b0 else (sched.map IterSpec.arrivals).getD (m - 1) []) ++
            (sched.map IterSpec.arrivals).getD m [] ∧
        (ensureLoop opts sched fs b0 w0 op0 cur0 wr0).written ++
            (ensureLoop opts sched fs b0 w0 op0 cur0 wr0).buffer =
          (w0 ++ b0) ++ ((sched.map IterSpec.arrivals).take (m + 1)).flatten := by
  intro sched
  induction sched with
  | nil =>
    intro fs b0 w0 op0 cur0 wr0 herr
    cases b0 with
    | nil => simp [ensureLoop] at herr
    | cons d ds =>
      cases ho : (runIter opts fs (d :: ds) none).err with
      | none =>
        simp only [ensureLoop, ho] at herr
        simp at herr
      | some e =>
        simp only [ensureLoop, ho] at herr ⊢
        exact ⟨0, by simp, by simp, by simp⟩
  | cons spec rest ih =>
    intro fs b0 w0 op0 cur0 wr0 herr
    cases b0 with
    | nil => simp [ensureLoop] at herr
    | cons d ds =>
      cases ho : (runIter opts fs (d :: ds) spec.fault).err with
      | some e =>
        simp only [ensureLoop, ho] at herr ⊢
        refine ⟨0, by simp, by simp, ?_⟩
        simp [List.append_assoc]
      | none =>
        simp only [ensureLoop, ho] at herr ⊢
        obtain ⟨m, hm, hbuf, hcons⟩ := ih _ _ _ _ _ _ herr
        refine ⟨m + 1, by simp only [List.length_cons]; omega, ?_, ?_⟩
        · rw [hbuf]
          cases m with
          | zero => simp
          | succ k => simp
        · rw [hcons]
          simp [List.append_assoc]

/-! ### Drain helpers -/

/-- Draining an empty queue does nothing: no open, no write, no close. -/
theorem ensureAllIsFlushed_empty (opts : Opts) (fs : FileState) (sched : List IterSpec) :
    ensureAllIsFlushed opts fs [] sched = ⟨fs, [], [], none, 0, 0, 0⟩ := by
  cases sched <;> rfl

/-- One explicit flush with no interleaving drains the whole queue with a
single open, a single write and a single close, extending the canonical
file content. -/
theorem drain_single (opts : Opts) (hG : GoodOpts opts) (old q : List J) (hq : q ≠ []) :
    ensureAllIsFlushed opts (some (serTop opts old)) q [] =
      ⟨some (serTop opts (old ++ q)), [], q, none, 1, 1, 1⟩ := by
  have h := ensureLoop_canonical opts hG [] (by simp) old q hq [] 0 false 0
  unfold ensureAllIsFlushed
  rw [h]
  simp

/-- Opening an absent file with initArray disabled fails with the
not-found error; nothing is opened, written or closed, and the queue is
left intact. -/
theorem flush_absent_notFound (opts : Opts) (hia : opts.initArray = false)
    (b0 : List J) (hb : b0 ≠ []) :
    ensureAllIsFlushed opts none b0 [] = ⟨none, b0, [], some .notFound, 0, 0, 0⟩ := by
  cases b0 with
  | nil => exact absurd rfl hb
  | cons d ds =>
    have hop : fileOpenM opts.initArray none = .error .notFound := by
      rw [hia]
      rfl
    have hit : runIter opts none (d :: ds) none = ⟨none, some .notFound, false, 0⟩ := by
      unfold runIter
      rw [hop]
      simp
    unfold ensureAllIsFlushed
    simp only [ensureLoop, hit]
    simp

/-- A whitespace-only file with initArray disabled fails with the
malformed-array error, and the file is left untouched. -/
theorem flush_ws_invalidArray (opts : Opts) (hia : opts.initArray = false)
    (content : List Char) (hws : ∀ c ∈ content, isWsChar c = true)
    (b0 : List J) (hb : b0 ≠ []) :
    ensureAllIsFlushed opts (some content) b0 [] =
      ⟨some content, b0, [], some .invalidArray, 1, 1, 0⟩ := by
  cases b0 with
  | nil => exact absurd rfl hb
  | cons d ds =>
    have hop : fileOpenM opts.initArray (some content) = .ok content := rfl
    have hlb : (readFileTail content).lastBracketIndex = none := by
      rw [readFileTail_lastBracket_eq, readFileTail_fileTail]
      unfold lastBracketIdx
      have hfind : ((content.drop (content.length - min content.length 50)).reverse.findIdx?
          (fun c => c = ']')) = none := by
        rw [List.findIdx?_eq_none_iff]
        intro x hx
        have hx2 : x ∈ content := List.mem_of_mem_drop (List.mem_reverse.mp hx)
        have := hws x hx2
        simp only [decide_eq_false_iff_not]
        intro hEq
        subst hEq
        simp [isWsChar] at this
      rw [hfind]
    have hcond : ¬((readFileTail content).trimmedFileTail = [] ∧
        opts.initArray = true) := by
      rintro ⟨_, h2⟩
      rw [hia] at h2
      exact absurd h2 (by simp)
    have hit : runIter opts (some content) (d :: ds) none =
        ⟨some content, some .invalidArray, true, 0⟩ := by
      unfold runIter
      rw [hop]
      simp only [reduceCtorEq, if_false]
      rw [if_neg hcond, hlb]
    unfold ensureAllIsFlushed
    simp only [ensureLoop, hit]
    simp


/-! ### The comma test against its specification -/

theorem dropWhile_head_false {p : Char → Bool} :
    ∀ {l t : List Char} {c : Char}, l.dropWhile p = c :: t → p c = false := by
  intro l
  induction l with
  | nil => intro t c h; simp at h
  | cons a l2 ih =>
    intro t c h
    rw [List.dropWhile_cons] at h
    by_cases hp : p a
    · simp only [hp, if_pos] at h
      exact ih h
    · simp only [hp, if_neg, not_false_iff] at h
      injection h with h1 _
      subst h1
      simpa using hp

theorem commaTest_shape (a w : List Char) (c : Char) (h1 : isWsChar c = false)
    (h2 : c ≠ '[') (hw : ∀ x ∈ w, isWsChar x = true) :
    commaTest (a ++ (c :: (w ++ [']']))) = true := by
  unfold commaTest
  have hrev : (a ++ (c :: (w ++ [']']))).reverse =
      ']' :: (w.reverse ++ (c :: a.reverse)) := by simp
  rw [hrev]
  have hdw : (w.reverse ++ (c :: a.reverse)).dropWhile isWsChar = c :: a.reverse :=
    dropWhile_ws_stop _ _ (fun x hx => hw x (List.mem_reverse.mp hx)) h1
  simp [hdw, h2]

/-- The positive comma test is exactly the regular expression's language:
some character that is neither whitespace nor an opening bracket, then
whitespace, then the final closing bracket. -/
theorem commaTest_iff (s : List Char) : commaTest s = true ↔ CommaSpec s := by
  constructor
  · intro h
    rcases hs : s.reverse with _ | ⟨c0, rest⟩
    · unfold commaTest at h
      rw [hs] at h
      simp at h
    · unfold commaTest at h
      rw [hs] at h
      by_cases hc : c0 = ']'
      · subst hc
        simp only [if_pos] at h
        rcases hd : rest.dropWhile isWsChar with _ | ⟨c, t⟩
        · rw [hd] at h
          simp at h
        · rw [hd] at h
          simp only [decide_eq_true_eq] at h
          refine ⟨t.reverse, c, (rest.takeWhile isWsChar).reverse, ?_,
            dropWhile_head_false hd, h, ?_⟩
          · have hrest : rest = rest.takeWhile isWsChar ++ (c :: t) := by
              conv_lhs => rw [← List.takeWhile_append_dropWhile isWsChar rest]
              rw [hd]
            have hsplit : s = (']' :: rest).reverse := by
              rw [← hs, List.reverse_reverse]
            rw [hsplit]
            conv_lhs => rw [hrest]
            simp
          · intro x hx
            exact List.mem_takeWhile_imp (List.mem_reverse.mp hx)
      · simp [hc] at h
  · rintro ⟨a, c, w, hsh, h1, h2, hw⟩
    rw [hsh]
    exact commaTest_shape a w c h1 h2 hw


/-- Under a sane configuration the stripped batch text begins with a
non-whitespace, non-comma character. -/
theorem jsonString_head (opts : Opts) (hG : GoodOpts opts) (data : List J)
    (hdata : data ≠ []) :
    ∃ c t, removeFirstAndLastBrackets (jsonStringify opts.indent (.jarr data)) = c :: t ∧
      isWsChar c = false ∧ c ≠ ',' := by
  rcases hG with ⟨_hp, hi⟩ | ⟨_hp, hi1, hi10⟩
  · rw [removeBrackets_compact opts hi data hdata]
    exact serItemsC_goodHead 0 data hdata
  · have h := removeBrackets_pretty opts hi1 hi10 data hdata
    obtain ⟨tD, htD, hhead⟩ := serItemsP_decomp (min opts.indent 10) 1 data hdata
    rw [Nat.mul_one] at htD
    have hgi : min opts.indent 10 = opts.indent := Nat.min_eq_left hi10
    rw [htD, hgi] at h
    have hjs : removeFirstAndLastBrackets (jsonStringify opts.indent (.jarr data)) = tD :=
      List.append_cancel_left h
    obtain ⟨c, t, he, h1, h2⟩ := hhead
    exact ⟨c, t, by rw [hjs, he], h1, h2⟩

/-- The insertion text starts with a separating comma exactly when the
comma test on the trimmed tail is positive. -/
theorem insertion_head_iff (opts : Opts) (hG : GoodOpts opts) (data : List J)
    (hdata : data ≠ []) (lbi rp : Nat) (ft tr : List Char) :
    ((buildInsertion opts data lbi rp ft tr).insertion.head? = some ',' ↔
      commaTest tr = true) := by
  rw [buildInsertion_eq]
  obtain ⟨c, t, hjs, h1, h2⟩ := jsonString_head opts hG data hdata
  cases hct : commaTest tr with
  | true =>
    simp only [if_pos]
    simp
  | false =>
    simp only [Bool.false_eq_true, if_false, reduceCtorEq]
    constructor
    · intro h
      exfalso
      cases hpretty : opts.pretty with
      | true =>
        rw [hpretty] at h
        simp at h
      | false =>
        rw [hpretty] at h
        simp only [Bool.false_eq_true, if_false] at h
        rw [hjs] at h
        simp at h
        exact h2 h
    · intro h
      simp at h


/-! ### Claim theorems -/

/-- C1, counterexample to the claim as stated.  The claim quantifies over
every file whose content is a valid JSON array.  The file holding the
valid JSON array of 1 and 2 with 49 spaces before its closing bracket
parses correctly, and a flush of the batch holding 3 reports success, yet
the resulting file content no longer parses as JSON at all: the 50-byte
tail window contained only whitespace and the bracket, so the separating
comma was omitted.  Hence re-parsing cannot equal the array with the batch
appended. -/
theorem c1_counterexample :
    jsonParseTop ('[' :: '1' :: ',' :: '2' :: (List.replicate 49 ' ' ++ [']'])) =
      some (.jarr [.jnum 1, .jnum 2]) ∧
    (ensureAllIsFlushed defOpts
      (some ('[' :: '1' :: ',' :: '2' :: (List.replicate 49 ' ' ++ [']'])))
      [.jnum 3] []).err = none ∧
    (ensureAllIsFlushed defOpts
      (some ('[' :: '1' :: ',' :: '2' :: (List.replicate 49 ' ' ++ [']'])))
      [.jnum 3] []).fs =
      some ('[' :: '1' :: ',' :: '2' :: '\n' :: ' ' :: ' ' :: '3' :: '\n' :: [']']) ∧
    jsonParseTop ('[' :: '1' :: ',' :: '2' :: '\n' :: ' ' :: ' ' :: '3' :: '\n' :: [']']) =
      none :=
  ⟨rfl, rfl, rfl, rfl⟩

/-- C1, amended: for every file whose content is the canonical
serialization of an array under the writer's configuration (compact, or
pretty with an indent between 1 and 10) and every nonempty ordered batch,
the scan-and-build step succeeds, the truncate position lies in the final
50-byte window, every byte before it is unchanged in the result, and the
flush produces exactly the canonical serialization of the previous array
with the batch appended at the end in order, in one write. -/
theorem c1_canonical_append (opts : Opts) (hG : GoodOpts opts)
    (old data : List J) (hdata : data ≠ []) :
    ∃ bi : Insertion,
      scanAndBuild opts data (serTop opts old) = some bi ∧
      (serTop opts old).length - 50 ≤ bi.truncatePosition ∧
      (serTop opts old).take bi.truncatePosition ++ bi.insertion =
        serTop opts (old ++ data) ∧
      (serTop opts (old ++ data)).take bi.truncatePosition =
        (serTop opts old).take bi.truncatePosition ∧
      ensureAllIsFlushed opts (some (serTop opts old)) data [] =
        ⟨some (serTop opts (old ++ data)), [], data, none, 1, 1, 1⟩ := by
  obtain ⟨bi, hsb, _htr, hlow, hhigh, hpatch⟩ :=
    scanAndBuild_canonical opts hG old data hdata
  refine ⟨bi, hsb, hlow, hpatch, ?_, drain_single opts hG old data hdata⟩
  rw [← hpatch]
  set A := (serTop opts old).take bi.truncatePosition with hA
  have hlen : A.length = bi.truncatePosition := by
    rw [hA, List.length_take]
    omega
  rw [← hlen]
  exact List.take_left _ _

/-- Witness for the amended C1 at a concrete input. -/
theorem c1_canonical_append_witness :
    ∃ bi : Insertion,
      scanAndBuild defOpts [.jnum 2] (serTop defOpts [.jnum 1]) = some bi ∧
      (serTop defOpts [.jnum 1]).length - 50 ≤ bi.truncatePosition ∧
      (serTop defOpts [.jnum 1]).take bi.truncatePosition ++ bi.insertion =
        serTop defOpts ([.jnum 1] ++ [.jnum 2]) ∧
      (serTop defOpts ([.jnum 1] ++ [.jnum 2])).take bi.truncatePosition =
        (serTop defOpts [.jnum 1]).take bi.truncatePosition ∧
      ensureAllIsFlushed defOpts (some (serTop defOpts [.jnum 1])) [.jnum 2] [] =
        ⟨some (serTop defOpts ([.jnum 1] ++ [.jnum 2])), [], [.jnum 2], none, 1, 1, 1⟩ :=
  c1_canonical_append defOpts (Or.inr ⟨rfl, by decide, by decide⟩) [.jnum 1] [.jnum 2] (by simp)

/-- C2: whenever a flush cycle fails with an error, the final queue is the
batch removed for the failing iteration re-inserted at its front, in its
original order, ahead of the entries that arrived during that iteration;
and the entries written so far together with the final queue account for
the initial queue and all arrivals exactly once — nothing lost, nothing
duplicated. -/
theorem c2_failure_restores (opts : Opts) (fs : FileState) (b0 : List J)
    (sched : List IterSpec)
    (herr : (ensureAllIsFlushed opts fs b0 sched).err ≠ none) :
    ∃ m, m ≤ sched.length ∧
      (ensureAllIsFlushed opts fs b0 sched).buffer =
        (if m = 0 then b0 else (sched.map IterSpec.arrivals).getD (m - 1) []) ++
          (sched.map IterSpec.arrivals).getD m [] ∧
      (ensureAllIsFlushed opts fs b0 sched).written ++
          (ensureAllIsFlushed opts fs b0 sched).buffer =
        b0 ++ ((sched.map IterSpec.arrivals).take (m + 1)).flatten := by
  have h := ensureLoop_failure opts sched fs b0 [] 0 false 0 herr
  simpa [ensureAllIsFlushed] using h

/-- Witness for C2: a failing write on an empty canonical file restores
the drained entry at the front of the queue. -/
theorem c2_failure_restores_witness :
    ∃ m, m ≤ ([⟨[], some .atWrite⟩] : List IterSpec).length ∧
      (ensureAllIsFlushed defOpts (some ['[', ']']) [.jnum 1]
        [⟨[], some .atWrite⟩]).buffer =
        (if m = 0 then [.jnum 1] else (([⟨[], some .atWrite⟩] : List IterSpec).map
          IterSpec.arrivals).getD (m - 1) []) ++
          (([⟨[], some .atWrite⟩] : List IterSpec).map IterSpec.arrivals).getD m [] ∧
      (ensureAllIsFlushed defOpts (some ['[', ']']) [.jnum 1]
        [⟨[], some .atWrite⟩]).written ++
          (ensureAllIsFlushed defOpts (some ['[', ']']) [.jnum 1]
            [⟨[], some .atWrite⟩]).buffer =
        [.jnum 1] ++ ((([⟨[], some .atWrite⟩] : List IterSpec).map
          IterSpec.arrivals).take (m + 1)).flatten :=
  c2_failure_restores defOpts (some ['[', ']']) [.jnum 1] [⟨[], some .atWrite⟩]
    (by decide)

/-- C3: a second flush call made while a flush is in flight returns the
existing in-flight handle and starts no new cycle, leaving the state
unchanged; a single flush of a nonempty queue performs exactly one write
(and one open and one close); a flush with an empty queue performs no I/O
at all and leaves the file untouched. -/
theorem c3_flush_idempotent (opts : Opts) (hG : GoodOpts opts) (old q : List J) :
    (flushEnter ⟨q, false, false⟩ false).2 = true ∧
    (flushEnter (flushEnter ⟨q, false, false⟩ false).1 false).2 = false ∧
    (flushEnter (flushEnter ⟨q, false, false⟩ false).1 false).1 =
      (flushEnter ⟨q, false, false⟩ false).1 ∧
    (q ≠ [] → ensureAllIsFlushed opts (some (serTop opts old)) q [] =
      ⟨some (serTop opts (old ++ q)), [], q, none, 1, 1, 1⟩) ∧
    (q = [] → ensureAllIsFlushed opts (some (serTop opts old)) q [] =
      ⟨some (serTop opts old), [], [], none, 0, 0, 0⟩) := by
  refine ⟨rfl, rfl, rfl, fun hq => drain_single opts hG old q hq, fun hq => ?_⟩
  subst hq
  exact ensureAllIsFlushed_empty opts _ []

/-- Witness for C3 at a concrete input. -/
theorem c3_flush_idempotent_witness :
    (flushEnter ⟨[.jnum 1], false, false⟩ false).2 = true ∧
    (flushEnter (flushEnter ⟨[.jnum 1], false, false⟩ false).1 false).2 = false ∧
    ensureAllIsFlushed defOpts (some (serTop defOpts [])) [.jnum 1] [] =
      ⟨some (serTop defOpts ([] ++ [.jnum 1])), [], [.jnum 1], none, 1, 1, 1⟩ := by
  obtain ⟨h1, h2, _h3, h4, _h5⟩ := c3_flush_idempotent defOpts (Or.inr ⟨rfl, by decide, by decide⟩) [] [.jnum 1]
  exact ⟨h1, h2, h4 (by simp)⟩

/-- C4, counterexample to the claim as stated.  An entry appended during
the flush cycle does not remain queued until a subsequent flush call: the
single flush invocation performs a second drain-and-write cycle on its
own (two writes), drains the arrival, and completes with an empty queue
and both entries in the file. -/
theorem c4_counterexample :
    (ensureAllIsFlushed defOpts (some ['[', ']']) [.jnum 1]
      [⟨[.jnum 2], none⟩]).buffer = [] ∧
    (ensureAllIsFlushed defOpts (some ['[', ']']) [.jnum 1]
      [⟨[.jnum 2], none⟩]).writes = 2 ∧
    (ensureAllIsFlushed defOpts (some ['[', ']']) [.jnum 1]
      [⟨[.jnum 2], none⟩]).fs = some (serTop defOpts [.jnum 1, .jnum 2]) ∧
    (ensureAllIsFlushed defOpts (some ['[', ']']) [.jnum 1]
      [⟨[.jnum 2], none⟩]).err = none :=
  ⟨rfl, rfl, rfl, rfl⟩

/-- C4, amended: the in-flight flush loops: after draining its starting
snapshot it re-checks the queue, and every nonempty batch of entries that
arrived during an iteration is drained by a further iteration of the same
flush invocation — one open and one write per batch — until the queue is
empty; no subsequent flush call is needed. -/
theorem c4_loop_drains (opts : Opts) (hG : GoodOpts opts) (sched : List IterSpec)
    (hs : ∀ s ∈ sched, s.arrivals ≠ [] ∧ s.fault = none)
    (old data : List J) (hdata : data ≠ []) :
    ensureAllIsFlushed opts (some (serTop opts old)) data sched =
      ⟨some (serTop opts ((old ++ data) ++ (sched.map IterSpec.arrivals).flatten)), [],
        data ++ (sched.map IterSpec.arrivals).flatten, none,
        sched.length + 1, 1, sched.length + 1⟩ := by
  have h := ensureLoop_canonical opts hG sched hs old data hdata [] 0 false 0
  unfold ensureAllIsFlushed
  rw [h]
  simp

/-- Witness for the amended C4 at a concrete input. -/
theorem c4_loop_drains_witness :
    ensureAllIsFlushed defOpts (some (serTop defOpts [])) [.jnum 1]
      [⟨[.jnum 2], none⟩] =
      ⟨some (serTop defOpts (([] ++ [.jnum 1]) ++
        (([⟨[.jnum 2], none⟩] : List IterSpec).map IterSpec.arrivals).flatten)), [],
        [.jnum 1] ++ (([⟨[.jnum 2], none⟩] : List IterSpec).map IterSpec.arrivals).flatten,
        none, 2, 1, 2⟩ :=
  c4_loop_drains defOpts (Or.inr ⟨rfl, by decide, by decide⟩) [⟨[.jnum 2], none⟩]
    (by
      intro s hs
      rw [List.mem_singleton] at hs
      subst hs
      constructor <;> simp)
    [] [.jnum 1] (by simp)

/-- C5: the code violates the claim.  When the flush cycle runs two
iterations (an entry arrived during the first), the file is opened twice
but the finally clause closes only the handle held last: one of the two
opened handles is left unclosed even though the cycle succeeds. -/
theorem c5_handle_leak :
    (ensureAllIsFlushed defOpts (some ['[', ']']) [.jnum 1]
      [⟨[.jnum 2], none⟩]).opened = 2 ∧
    (ensureAllIsFlushed defOpts (some ['[', ']']) [.jnum 1]
      [⟨[.jnum 2], none⟩]).closed = 1 ∧
    (ensureAllIsFlushed defOpts (some ['[', ']']) [.jnum 1]
      [⟨[.jnum 2], none⟩]).err = none :=
  ⟨rfl, rfl, rfl⟩

/-- C6: the code violates the claim.  The writer configuration carries no
error-suppression option (its fields are exactly the flush threshold, the
file opener, pretty, indent and initArray), and when an append reaches the
threshold the triggered flush's failure is delivered to the append caller:
here a write fault surfaces as the ioFault error of the append-triggered
flush rather than being routed to any error-reporting sink, and the entry
is restored to the queue. -/
theorem c6_threshold_error_propagates :
    (appendFlush defOpts ⟨[], false, false⟩ (some ['[', ']']) (.jnum 1)
      [⟨[], some .atWrite⟩]).triggered = true ∧
    (appendFlush defOpts ⟨[], false, false⟩ (some ['[', ']']) (.jnum 1)
      [⟨[], some .atWrite⟩]).err = some .ioFault ∧
    (appendFlush defOpts ⟨[], false, false⟩ (some ['[', ']']) (.jnum 1)
      [⟨[], some .atWrite⟩]).w.buffer = [.jnum 1] :=
  ⟨rfl, rfl, rfl⟩

/-- C7: the insertion builder prepends a separating comma exactly when the
trimmed tail ends in a non-whitespace, non-opening-bracket character
followed by optional whitespace and the closing bracket; in particular a
trimmed tail holding the array of 1 and 2 receives a comma and a trimmed
tail holding the empty array does not. -/
theorem c7_comma_decision (opts : Opts) (hG : GoodOpts opts) (data : List J)
    (hdata : data ≠ []) (lbi rp : Nat) (ft tr : List Char) :
    ((buildInsertion opts data lbi rp ft tr).insertion.head? = some ',' ↔
      CommaSpec tr) ∧
    (buildInsertion defOpts [.jnum 3] 4 0 ['[', '1', ',', '2', ']']
      ['[', '1', ',', '2', ']']).insertion.head? = some ',' ∧
    (buildInsertion defOpts [.jnum 3] 1 0 ['[', ']']
      ['[', ']']).insertion.head? ≠ some ',' := by
  refine ⟨?_, rfl, by decide⟩
  rw [insertion_head_iff opts hG data hdata lbi rp ft tr]
  exact commaTest_iff tr

/-- Witness for C7 at a concrete input. -/
theorem c7_comma_decision_witness :
    ((buildInsertion defOpts [.jnum 2] 2 0 ['[', '1', ']']
      ['[', '1', ']']).insertion.head? = some ',' ↔ CommaSpec ['[', '1', ']']) :=
  (c7_comma_decision defOpts (Or.inr ⟨rfl, by decide, by decide⟩) [.jnum 2] (by simp) 2 0
    ['[', '1', ']'] ['[', '1', ']']).1

/-- C8, counterexample to the claim as stated.  Appending against an empty
existing file with auto-initialization disabled does not fail with a
file-not-found-class error: it fails with the malformed-array error (no
closing bracket found), which is distinct from the not-found error; the
file content is untouched and nothing is written. -/
theorem c8_counterexample :
    (ensureAllIsFlushed ⟨true, 2, false, some 1⟩ (some []) [.jnum 1] []).err =
      some .invalidArray ∧
    some Err.invalidArray ≠ some Err.notFound ∧
    (ensureAllIsFlushed ⟨true, 2, false, some 1⟩ (some []) [.jnum 1] []).fs = some [] ∧
    (ensureAllIsFlushed ⟨true, 2, false, some 1⟩ (some []) [.jnum 1] []).writes = 0 :=
  ⟨rfl, by decide, rfl, rfl⟩

/-- C8, amended: with auto-initialization disabled, appending against an
absent file fails with the underlying not-found error from open, while
appending against an empty (or whitespace-only) existing file fails with
the malformed-array error; in both cases the file is untouched, nothing is
written, and the queue keeps the entries. -/
theorem c8_initArray_off_failures (opts : Opts) (hia : opts.initArray = false)
    (b0 : List J) (hb : b0 ≠ []) :
    ensureAllIsFlushed opts none b0 [] = ⟨none, b0, [], some .notFound, 0, 0, 0⟩ ∧
    ∀ content, (∀ c ∈ content, isWsChar c = true) →
      ensureAllIsFlushed opts (some content) b0 [] =
        ⟨some content, b0, [], some .invalidArray, 1, 1, 0⟩ :=
  ⟨flush_absent_notFound opts hia b0 hb,
   fun content hws => flush_ws_invalidArray opts hia content hws b0 hb⟩

/-- Witness for the amended C8 at a concrete input. -/
theorem c8_initArray_off_failures_witness :
    ensureAllIsFlushed ⟨true, 2, false, some 1⟩ none [.jnum 7] [] =
      ⟨none, [.jnum 7], [], some .notFound, 0, 0, 0⟩ :=
  (c8_initArray_off_failures ⟨true, 2, false, some 1⟩ rfl [.jnum 7] (by simp)).1

/-- C9: append triggers (and returns the settlement of) a flush exactly
when the queue, after the push, reaches a finite configured threshold and
the writer is not shut down; in that case the error of the triggered flush
is the very error append's caller receives, not suppressed; otherwise
append returns nothing and no flush outcome is produced. -/
theorem c9_append_returns_flush (opts : Opts) (w : WriterState) (v : J)
    (fs : FileState) (sched : List IterSpec) :
    ((appendStep w v opts.threshold).2 = true ↔
      (w.isShutdown = false ∧ ∃ t, opts.threshold = some t ∧ t ≤ w.buffer.length + 1)) ∧
    (w.isShutdown = false → w.inFlight = false →
      (appendStep w v opts.threshold).2 = true →
      (appendFlush opts w fs v sched).triggered = true ∧
      (appendFlush opts w fs v sched).err =
        (ensureAllIsFlushed opts fs (w.buffer ++ [v]) sched).err) ∧
    ((appendStep w v opts.threshold).2 = false →
      (appendFlush opts w fs v sched).triggered = false ∧
      (appendFlush opts w fs v sched).err = none) := by
  refine ⟨?_, ?_, ?_⟩
  · unfold appendStep isFull
    cases hsd : w.isShutdown with
    | true =>
      simp
    | false =>
      simp only [Bool.false_eq_true, if_false]
      cases ht : opts.threshold with
      | none => simp
      | some t =>
        simp only [List.length_append, List.length_cons, List.length_nil]
        constructor
        · intro h
          refine ⟨by trivial, t, by trivial, ?_⟩
          simpa [ge_iff_le] using of_decide_eq_true h
        · rintro ⟨_, t2, ht2, hle⟩
          injection ht2 with ht2
          subst ht2
          simpa [ge_iff_le] using hle
  · intro hsd hif htrig
    unfold appendFlush
    unfold appendStep at htrig ⊢
    rw [hsd] at htrig ⊢
    simp only [Bool.false_eq_true, if_false] at htrig ⊢
    rw [htrig]
    simp only [if_pos]
    unfold flushEnter
    rw [hif]
    simp
  · intro htrig
    unfold appendFlush
    unfold appendStep at htrig ⊢
    cases hsd : w.isShutdown with
    | true => simp
    | false =>
      rw [hsd] at htrig
      simp only [Bool.false_eq_true, if_false] at htrig ⊢
      simp [htrig]

/-- Witness for C9 at a concrete input. -/
theorem c9_append_returns_flush_witness :
    (appendFlush defOpts ⟨[], false, false⟩ (some ['[', ']']) (.jnum 1) []).err =
      (ensureAllIsFlushed defOpts (some ['[', ']']) ([] ++ [.jnum 1]) []).err := by
  obtain ⟨_h1, h2, _h3⟩ := c9_append_returns_flush defOpts ⟨[], false, false⟩ (.jnum 1)
    (some ['[', ']']) []
  exact (h2 rfl rfl rfl).2

/-- C10: the shutdown latch gates only append, never flush: with the latch
set, append drops its entry and leaves the writer unchanged, while a flush
call still starts (the latch is not consulted), drains the entries queued
before shutdown into the file, and a flush with an empty queue resolves
without any I/O. -/
theorem c10_shutdown_gates_append_only (opts : Opts) (hG : GoodOpts opts)
    (old q : List J) (v : J) :
    appendStep ⟨q, true, false⟩ v opts.threshold = (⟨q, true, false⟩, false) ∧
    (flushEnter ⟨q, true, false⟩ false).2 = true ∧
    (q ≠ [] → ensureAllIsFlushed opts (some (serTop opts old)) q [] =
      ⟨some (serTop opts (old ++ q)), [], q, none, 1, 1, 1⟩) ∧
    (q = [] → ensureAllIsFlushed opts (some (serTop opts old)) q [] =
      ⟨some (serTop opts old), [], [], none, 0, 0, 0⟩) := by
  refine ⟨rfl, rfl, fun hq => drain_single opts hG old q hq, fun hq => ?_⟩
  subst hq
  exact ensureAllIsFlushed_empty opts _ []

/-- Witness for C10 at a concrete input. -/
theorem c10_shutdown_gates_append_only_witness :
    appendStep ⟨[.jnum 1], true, false⟩ (.jnum 9) defOpts.threshold =
      (⟨[.jnum 1], true, false⟩, false) ∧
    ensureAllIsFlushed defOpts (some (serTop defOpts [])) [.jnum 1] [] =
      ⟨some (serTop defOpts ([] ++ [.jnum 1])), [], [.jnum 1], none, 1, 1, 1⟩ := by
  obtain ⟨h1, _h2, h3, _h4⟩ := c10_shutdown_gates_append_only defOpts
    (Or.inr ⟨rfl, by decide, by decide⟩) [] [.jnum 1] (.jnum 9)
  exact ⟨h1, h3 (by simp)⟩


end Jappend
